import Mathlib

/-!
Verification of the `go-depgraph` repository (`src/depgraph.go`).

The file shallowly embeds the Go code:

* `depEdge` mirrors the Go `depEdge` record: an element identity `name`
  plus its dependency set `deps`.  The Go `deps` field is a
  `map[T]struct{}`; a Go map is a finite set of keys with an
  *unspecified* iteration order.  The model represents that set as the
  duplicate-free list of keys in first-insertion order, which is one of
  the admissible iteration orders; iteration order is observable only in
  which unknown dependency `validate` happens to report, and every fact
  proved below about that report ("the reported value is a genuinely
  unknown dependency") holds for every admissible order.
* `DependencyGraph` holds the insertion-ordered slice `edges`.  The Go
  `edgeMap` field shares its records with `edges` (it maps each name to
  the record holding it), so for the reachable, duplicate-free states it
  is recovered by name lookup in `edges` and only the slice is stored.
* `Add`, `validate`, `ResolveIter` and `Resolve` follow the Go functions
  statement by statement.  The in-place slice swaps of `ResolveIter` are
  modelled by `listSwap`, the `refcounts` map by a function `T → Int`
  (a Go `int` decrement may pass through zero, hence `Int`, not `Nat`),
  and the `iter.Seq2` yield protocol by an explicit trace of yields plus
  a consumer budget: a consumer of this deterministic generator is fully
  described by how many yields receive `true` before the first `false`
  (`none` = the consumer never stops pulling).
-/

namespace Depgraph

/-- One edge record of the graph, mirroring the Go `depEdge` struct:
an element identity together with the set of identities it depends on
(`deps` is kept duplicate-free, see the file header). -/
structure depEdge (T : Type) where
  name : T
  deps : List T
deriving DecidableEq

/-- The stable dependency graph: the insertion-ordered slice of edge
records.  Mirrors the Go `DependencyGraph` struct; the `edgeMap` field is
derived (see the file header). -/
structure DependencyGraph (T : Type) where
  edges : List (depEdge T)
deriving DecidableEq

/-- The two error conditions of the package.  `unknownDependency` carries
the dependency value interpolated into the Go error message
(`"looking up dependency \"%v\""`); `errors.Is` comparisons in Go see only
the constructor. -/
inductive ResolveErr (T : Type) where
  | circularDependency
  | unknownDependency (dep : T)
deriving DecidableEq

/-- The `errors.Is`-visible class of an error: which sentinel
(`ErrCircularDependency` / `ErrUnknownDependency`) it wraps, forgetting
the interpolated message. -/
inductive ErrClass where
  | circular
  | unknown
deriving DecidableEq

/-- Maps an error to its sentinel class. -/
def errClass : ResolveErr T → ErrClass
  | .circularDependency => .circular
  | .unknownDependency _ => .unknown

/-- One yield of the `iter.Seq2[T, error]` iterator: either an element
(paired with a nil error) or a zero element paired with an error. -/
inductive Yield (T : Type) where
  | elem (t : T)
  | fail (e : ResolveErr T)
deriving DecidableEq

variable {T : Type} [DecidableEq T]

/-- The names stored in the graph, in slice order. -/
def namesOf (dg : DependencyGraph T) : List T :=
  dg.edges.map depEdge.name

/-- The `edgeMap` lookup: the stored record for a name (reachable graphs
hold at most one record per name). -/
def lookupEdge (dg : DependencyGraph T) (x : T) : Option (depEdge T) :=
  dg.edges.find? (fun e => decide (e.name = x))

/-- The dependency set stored for a name (`∅` when the name is unknown). -/
def depsOf (dg : DependencyGraph T) (x : T) : List T :=
  ((lookupEdge dg x).map depEdge.deps).getD []

/-- Reachable-state invariant: every identity appears at most once in the
edge slice, and every stored dependency set is duplicate-free.  `Add`
(the only mutator) preserves it. -/
def Wf (dg : DependencyGraph T) : Prop :=
  (namesOf dg).Nodup ∧ ∀ e ∈ dg.edges, e.deps.Nodup

instance (dg : DependencyGraph T) : Decidable (Wf dg) := by
  unfold Wf; infer_instance

/-- Mirrors Go `NewDependencyGraph`: the empty graph. -/
def NewDependencyGraph (T : Type) : DependencyGraph T := ⟨[]⟩

/-- One Go map insertion `edge.deps[dep] = struct{}{}`: a no-op when the
key is already present. -/
def insertDep (s : List T) (d : T) : List T :=
  if d ∈ s then s else s ++ [d]

/-- Go `Add` inserts the dependencies one by one. -/
def insertDeps (s : List T) (deps : List T) : List T :=
  deps.foldl insertDep s

/-- Mirrors Go `Add`: appends a fresh record when the name is new,
otherwise unions the new dependencies into the existing record (which
does not move). -/
def Add (dg : DependencyGraph T) (name : T) (deps : List T) : DependencyGraph T :=
  if name ∈ namesOf dg then
    ⟨dg.edges.map fun e => if e.name = name then ⟨e.name, insertDeps e.deps deps⟩ else e⟩
  else
    ⟨dg.edges ++ [⟨name, insertDeps [] deps⟩]⟩

/-- A whole construction history: fold `Add` over a list of
`(name, dependency list)` calls starting from the empty graph. -/
def buildGraph (ops : List (T × List T)) : DependencyGraph T :=
  ops.foldl (fun g op => Add g op.1 op.2) (NewDependencyGraph T)

/-- Mirrors Go `validate`: scans every edge's dependency set and returns
the first dependency that is not itself a stored name (`none` when the
graph is valid).  Go iterates two maps here, so *which* unknown dependency
is found is unspecified; the model fixes insertion order. -/
def validate (dg : DependencyGraph T) : Option T :=
  dg.edges.findSome? fun e => e.deps.find? fun d => decide (d ∉ namesOf dg)

/-- The initial reference counts of `ResolveIter`
(`refcounts[edge.name] = len(edge.deps)`; missing keys read as `0`,
later writes win, exactly as for a Go map). -/
def initRefcounts (edges : List (depEdge T)) : T → Int :=
  edges.foldl (fun rc e => fun y => if y = e.name then (e.deps.length : Int) else rc y)
    (fun _ => 0)

/-- The Go parallel assignment `edges[i], edges[j] = edges[j], edges[i]`
(identity when either index is out of range; `ResolveIter` only ever
swaps in-range indices). -/
def listSwap (l : List α) (i j : Nat) : List α :=
  match l[i]?, l[j]? with
  | some a, some b => (l.set i b).set j a
  | some _, none => l
  | none, _ => l

theorem listSwap_eq (l : List α) (i j : Nat) (a b : α)
    (hi : l[i]? = some a) (hj : l[j]? = some b) :
    listSwap l i j = (l.set i b).set j a := by
  unfold listSwap
  rw [hi, hj]

theorem length_listSwap (l : List α) (i j : Nat) : (listSwap l i j).length = l.length := by
  unfold listSwap
  cases l[i]? <;> cases l[j]? <;> simp

theorem listSwap_getElem?_of_ne (l : List α) (i j k : Nat) (hki : k ≠ i) (hkj : k ≠ j) :
    (listSwap l i j)[k]? = l[k]? := by
  unfold listSwap
  cases hi : l[i]? <;> cases hj : l[j]? <;>
    simp [List.getElem?_set_ne (fun h => hki h.symm), List.getElem?_set_ne (fun h => hkj h.symm)]

theorem listSwap_getElem?_left (l : List α) (i j : Nat) (a b : α)
    (hi : l[i]? = some a) (hj : l[j]? = some b) : (listSwap l i j)[i]? = some b := by
  rw [listSwap_eq l i j a b hi hj]
  by_cases hij : i = j
  · subst hij
    rw [hi] at hj
    simp only [Option.some_inj] at hj
    subst hj
    have hlen : i < l.length := (List.getElem?_eq_some.mp hi).1
    rw [List.set_set]
    simp [List.getElem?_set_self', hlen]
  · rw [List.getElem?_set_ne (fun h => hij h.symm)]
    have hlen : i < l.length := (List.getElem?_eq_some.mp hi).1
    simp [List.getElem?_set_self', hlen]

theorem listSwap_getElem?_right (l : List α) (i j : Nat) (a b : α)
    (hi : l[i]? = some a) (hj : l[j]? = some b) : (listSwap l i j)[j]? = some a := by
  rw [listSwap_eq l i j a b hi hj]
  have hlen : j < (l.set i b).length := by
    simpa using (List.getElem?_eq_some.mp hj).1
  simp [List.getElem?_set_self', List.getElem?_eq_getElem hlen, Function.const]

theorem set_perm_cons (l : List α) (j : Nat) (a b : α) (hj : l[j]? = some b) :
    (b :: l.set j a).Perm (a :: l) := by
  induction l generalizing j with
  | nil => simp at hj
  | cons x t ih =>
    cases j with
    | zero =>
      simp only [List.getElem?_cons_zero, Option.some_inj] at hj
      subst hj
      simpa using List.Perm.swap a x t
    | succ m =>
      simp only [List.getElem?_cons_succ] at hj
      have p1 : (b :: x :: t.set m a).Perm (x :: b :: t.set m a) := List.Perm.swap x b _
      have p2 : (x :: b :: t.set m a).Perm (x :: a :: t) := List.Perm.cons x (ih m hj)
      have p3 : (x :: a :: t).Perm (a :: x :: t) := List.Perm.swap a x t
      simpa using p1.trans (p2.trans p3)

theorem set_set_perm (l : List α) (i j : Nat) (a b : α)
    (hi : l[i]? = some a) (hj : l[j]? = some b) : ((l.set i b).set j a).Perm l := by
  induction l generalizing i j with
  | nil => simp at hi
  | cons x t ih =>
    cases i with
    | zero =>
      simp only [List.getElem?_cons_zero, Option.some_inj] at hi
      subst hi
      cases j with
      | zero =>
        simp only [List.getElem?_cons_zero, Option.some_inj] at hj
        subst hj
        simp
      | succ m =>
        simp only [List.getElem?_cons_succ] at hj
        simpa using set_perm_cons t m x b hj
    | succ n =>
      simp only [List.getElem?_cons_succ] at hi
      cases j with
      | zero =>
        simp only [List.getElem?_cons_zero, Option.some_inj] at hj
        subst hj
        simpa using set_perm_cons t n x a hi
      | succ m =>
        simp only [List.getElem?_cons_succ] at hj
        simpa using List.Perm.cons x (ih n m hi hj)

theorem listSwap_perm (l : List α) (i j : Nat) : (listSwap l i j).Perm l := by
  unfold listSwap
  cases hi : l[i]? with
  | none => exact List.Perm.refl l
  | some a =>
    cases hj : l[j]? with
    | none => exact List.Perm.refl l
    | some b => exact set_set_perm l i j a b hi hj

/-- The stable-partition pass of `ResolveIter`: promote every edge with an
empty dependency set to the front, keeping relative order
(`for i, edge := range edges { if len(edge.deps) == 0 { swap; fmax++ } }`).
The fuel argument is only a structural-recursion bound; callers pass
`edges.length`, which lets the scan reach every position. -/
def promote (edges : List (depEdge T)) (fmax i : Nat) : Nat → List (depEdge T) × Nat
  | 0 => (edges, fmax)
  | fuel + 1 =>
    match edges[i]? with
    | none => (edges, fmax)
    | some e =>
      if e.deps.length = 0 then
        promote (listSwap edges fmax i) (fmax + 1) (i + 1) fuel
      else
        promote edges fmax (i + 1) fuel

/-- The Go map decrement `refcounts[n]--`. -/
def rcDec (rc : T → Int) (n : T) : T → Int :=
  fun y => if y = n then rc n - 1 else rc y

theorem rcDec_self (rc : T → Int) (n : T) : rcDec rc n n = rc n - 1 := by
  simp [rcDec]

theorem rcDec_ne (rc : T → Int) (n y : T) (h : y ≠ n) : rcDec rc n y = rc y := by
  simp [rcDec, h]

/-- The inner scan of `ResolveIter` after yielding the element `cur`:
walk the positions after the cursor, decrement the reference count of
every edge depending on `cur`, and promote an edge to the free boundary
when its count reaches zero.  The fuel argument is only a
structural-recursion bound; callers pass `edges.length`. -/
def scan (cur : T) (edges : List (depEdge T)) (rc : T → Int) (fmax i : Nat) :
    Nat → List (depEdge T) × (T → Int) × Nat
  | 0 => (edges, rc, fmax)
  | fuel + 1 =>
    match edges[i]? with
    | none => (edges, rc, fmax)
    | some e =>
      if cur ∈ e.deps then
        if rcDec rc e.name e.name = 0 then
          scan cur (listSwap edges fmax i) (rcDec rc e.name) (fmax + 1) (i + 1) fuel
        else
          scan cur edges (rcDec rc e.name) fmax (i + 1) fuel
      else
        scan cur edges rc fmax (i + 1) fuel

/-- The state in which the produce/scan loop of `ResolveIter` finished:
the elements yielded so far, whether the consumer stopped the iteration
(a yield returned `false`), and the working state (the edge slice, the
reference counts, the free boundary `fmax` and the cursor `fcur`). -/
structure LoopRes (T : Type) where
  out : List T
  stopped : Bool
  edges : List (depEdge T)
  rc : T → Int
  fmax : Nat
  fcur : Nat

/-- The produce/scan loop of `ResolveIter`
(`for fcur := 0; fcur < fmax; fcur++ { yield; scan }`).  The fuel argument
is only a recursion bound: the loop runs at most `edges.length` times
because `fcur` grows by one per iteration and never passes `fmax ≤
edges.length`, so callers pass `edges.length` and the zero-fuel branch is
never reached with `fcur < fmax`. -/
def mainLoop (edges : List (depEdge T)) (rc : T → Int) (fmax fcur : Nat)
    (budget : Option Nat) (acc : List T) : Nat → LoopRes T
  | 0 => ⟨acc, false, edges, rc, fmax, fcur⟩
  | fuel + 1 =>
    if fcur < fmax then
      match edges[fcur]? with
      | none => ⟨acc, false, edges, rc, fmax, fcur⟩
      | some e =>
        match budget with
        | some 0 => ⟨acc ++ [e.name], true, edges, rc, fmax, fcur⟩
        | _ =>
          let s := scan e.name edges rc fmax (fcur + 1) edges.length
          mainLoop s.1 s.2.1 s.2.2 (fcur + 1) (budget.map fun b => b - 1)
            (acc ++ [e.name]) fuel
    else ⟨acc, false, edges, rc, fmax, fcur⟩

/-- The observable outcome of one run of the `ResolveIter` iterator:
the trace of yields the consumer received, whether the consumer stopped
the iteration early, and the graph state after the run (the Go code
permutes `dg.edges` in place through the shared slice). -/
structure IterRes (T : Type) where
  trace : List (Yield T)
  stopped : Bool
  after : DependencyGraph T

/-- Mirrors Go `ResolveIter`, run against a consumer with the given
budget (see the file header): validation, reference counting, the stable
partition, the produce/scan loop, and the final circular-dependency check
(`if fmax != len(edges)`), which is skipped when the consumer stopped. -/
def resolveIterRun (dg : DependencyGraph T) (budget : Option Nat) : IterRes T :=
  match validate dg with
  | some d => ⟨[.fail (.unknownDependency d)], false, dg⟩
  | none =>
    let rc := initRefcounts dg.edges
    let p := promote dg.edges 0 0 dg.edges.length
    let r := mainLoop p.1 rc p.2 0 budget [] p.1.length
    if r.stopped then
      ⟨r.out.map Yield.elem, true, ⟨r.edges⟩⟩
    else if r.fmax ≠ r.edges.length then
      ⟨r.out.map Yield.elem ++ [.fail .circularDependency], false, ⟨r.edges⟩⟩
    else
      ⟨r.out.map Yield.elem, false, ⟨r.edges⟩⟩

/-- The materializing loop of Go `Resolve`: ranges over the iterator,
appending elements, and on the first error pair discards the collected
elements and returns `(nil, err)`. -/
def collect : List (Yield T) → List T → List T × Option (ResolveErr T)
  | [], acc => (acc, none)
  | .elem t :: rest, acc => collect rest (acc ++ [t])
  | .fail e :: _, _ => ([], some e)

/-- Mirrors Go `Resolve`: drive the iterator to completion and collect. -/
def Resolve (dg : DependencyGraph T) : List T × Option (ResolveErr T) :=
  collect (resolveIterRun dg none).trace []

/-- The graph state left behind by a full (never-cancelled) resolution:
Go `Resolve` works in place on `dg.edges`, so this is the stored slice
after the call. -/
def graphAfterResolve (dg : DependencyGraph T) : DependencyGraph T :=
  (resolveIterRun dg none).after

/-! ### Small helper lemmas -/

/-- The number of dependencies of `s` not yet placed in `out`: the value
`ResolveIter` tracks (incrementally) in `refcounts`. -/
def pendCount (s : List T) (out : List T) : Nat :=
  (s.filter fun d => decide (d ∉ out)).length

theorem pendCount_nil (s : List T) : pendCount s [] = s.length := by
  simp [pendCount]

theorem pendCount_eq_zero_iff (s out : List T) :
    pendCount s out = 0 ↔ ∀ d ∈ s, d ∈ out := by
  simp [pendCount, List.filter_eq_nil]

theorem pendCount_append_of_not_mem (s out : List T) (cur : T) (hcur : cur ∉ s) :
    pendCount s (out ++ [cur]) = pendCount s out := by
  unfold pendCount
  congr 1
  apply List.filter_congr
  intro d hd
  have : d ≠ cur := fun h => hcur (h ▸ hd)
  simp [this]

theorem pendCount_append_of_mem (s out : List T) (cur : T) (hnd : s.Nodup)
    (hcur : cur ∈ s) (hout : cur ∉ out) :
    pendCount s (out ++ [cur]) + 1 = pendCount s out := by
  unfold pendCount
  -- filter for the bigger exclusion set is the `≠ cur` refinement of the smaller one
  have h1 : (s.filter fun d => decide (d ∉ out ++ [cur]))
      = (s.filter fun d => decide (d ∉ out)).filter (fun d => decide (d ≠ cur)) := by
    rw [List.filter_filter]
    apply List.filter_congr
    intro d _
    by_cases h1 : d ∈ out <;> by_cases h2 : d = cur <;> simp [h1, h2]
  have hndf : ((s.filter fun d => decide (d ∉ out))).Nodup := hnd.filter _
  have hmemf : cur ∈ (s.filter fun d => decide (d ∉ out)) :=
    List.mem_filter.mpr ⟨hcur, by simp [hout]⟩
  have h2 : ((s.filter fun d => decide (d ∉ out)).filter (fun d => decide (d ≠ cur)))
      = (s.filter fun d => decide (d ∉ out)).erase cur := by
    rw [hndf.erase_eq_filter]
    apply List.filter_congr
    intro d _
    by_cases h : d = cur <;> simp [h]
  rw [h1, h2]
  have := (s.filter fun d => decide (d ∉ out)).length_erase_of_mem hmemf
  rw [this]
  have hpos : 0 < (s.filter fun d => decide (d ∉ out)).length :=
    List.length_pos.mpr (List.ne_nil_of_mem hmemf)
  omega

/-- Distinct positions in a slice with duplicate-free names hold
differently named edges. -/
theorem name_ne_of_ne_pos (edges : List (depEdge T))
    (hnd : (edges.map depEdge.name).Nodup) (k j : Nat) (a b : depEdge T)
    (hk : edges[k]? = some a) (hj : edges[j]? = some b) (hne : k ≠ j) :
    a.name ≠ b.name := by
  have hk1 : k < edges.length := (List.getElem?_eq_some.mp hk).1
  have hj1 : j < edges.length := (List.getElem?_eq_some.mp hj).1
  have hka : edges[k] = a := (List.getElem?_eq_some.mp hk).2
  have hjb : edges[j] = b := (List.getElem?_eq_some.mp hj).2
  intro hname
  have hklen : k < (edges.map depEdge.name).length := by simpa using hk1
  have hjlen : j < (edges.map depEdge.name).length := by simpa using hj1
  have hkm : (edges.map depEdge.name)[k] = a.name := by
    rw [List.getElem_map, hka]
  have hjm : (edges.map depEdge.name)[j] = b.name := by
    rw [List.getElem_map, hjb]
  have heq : (edges.map depEdge.name)[k] = (edges.map depEdge.name)[j] := by
    rw [hkm, hjm, hname]
  exact hne (hnd.getElem_inj_iff.mp heq)

/-- Updating `initRefcounts`-style maps: entries for absent names survive. -/
theorem initRefcounts_not_mem (edges : List (depEdge T)) (rc : T → Int) (x : T)
    (hx : x ∉ edges.map depEdge.name) :
    edges.foldl (fun rc e => fun y => if y = e.name then (e.deps.length : Int) else rc y) rc x
      = rc x := by
  induction edges generalizing rc with
  | nil => rfl
  | cons e t ih =>
    simp only [List.map_cons, List.mem_cons, not_or] at hx
    simp only [List.foldl_cons]
    rw [ih _ hx.2]
    simp [hx.1]

theorem initRefcounts_gen (edges : List (depEdge T)) (rc : T → Int)
    (hnd : (edges.map depEdge.name).Nodup) (e : depEdge T) (he : e ∈ edges) :
    edges.foldl (fun rc e => fun y => if y = e.name then (e.deps.length : Int) else rc y) rc e.name
      = (e.deps.length : Int) := by
  induction edges generalizing rc e with
  | nil => simp at he
  | cons f t ih =>
    simp only [List.map_cons, List.nodup_cons] at hnd
    rcases List.mem_cons.mp he with rfl | ht
    · simp only [List.foldl_cons]
      rw [initRefcounts_not_mem t _ e.name hnd.1]
      simp
    · simp only [List.foldl_cons]
      exact ih _ hnd.2 e ht

/-- `refcounts[edge.name] = len(edge.deps)` for every stored edge, when
names are duplicate-free. -/
theorem initRefcounts_eq (edges : List (depEdge T))
    (hnd : (edges.map depEdge.name).Nodup) (e : depEdge T) (he : e ∈ edges) :
    initRefcounts edges e.name = (e.deps.length : Int) :=
  initRefcounts_gen edges _ hnd e he

theorem validate_eq_none_iff (dg : DependencyGraph T) :
    validate dg = none ↔ ∀ e ∈ dg.edges, ∀ d ∈ e.deps, d ∈ namesOf dg := by
  unfold validate
  rw [List.findSome?_eq_none_iff]
  constructor
  · intro h e he d hd
    have := h e he
    rw [List.find?_eq_none] at this
    have := this d hd
    simpa using this
  · intro h e he
    rw [List.find?_eq_none]
    intro d hd
    simp [h e he d hd]

theorem validate_some_spec (dg : DependencyGraph T) (d : T)
    (h : validate dg = some d) :
    (∃ e ∈ dg.edges, d ∈ e.deps) ∧ d ∉ namesOf dg := by
  unfold validate at h
  obtain ⟨e, he, hfind⟩ := List.exists_of_findSome?_eq_some h
  refine ⟨⟨e, he, List.mem_of_find?_eq_some hfind⟩, ?_⟩
  have := List.find?_some hfind
  simpa using this

/-- Under duplicate-free names, name search finds exactly the stored
record. -/
theorem find?_name_eq (l : List (depEdge T)) (hnd : (l.map depEdge.name).Nodup)
    (e : depEdge T) (he : e ∈ l) :
    l.find? (fun f => decide (f.name = e.name)) = some e := by
  induction l with
  | nil => simp at he
  | cons f t ih =>
    simp only [List.map_cons, List.nodup_cons] at hnd
    rcases List.mem_cons.mp he with rfl | ht
    · rw [List.find?_cons_of_pos _ (by simp)]
    · have hne : f.name ≠ e.name := by
        intro hcon
        exact hnd.1 (hcon ▸ (List.mem_map.mpr ⟨e, ht, rfl⟩))
      rw [List.find?_cons_of_neg _ (by simp [hne])]
      exact ih hnd.2 ht

theorem lookupEdge_eq_of_mem (dg : DependencyGraph T)
    (hnd : (namesOf dg).Nodup) (e : depEdge T) (he : e ∈ dg.edges) :
    lookupEdge dg e.name = some e :=
  find?_name_eq dg.edges hnd e he

theorem depsOf_eq_of_mem (dg : DependencyGraph T)
    (hnd : (namesOf dg).Nodup) (e : depEdge T) (he : e ∈ dg.edges) :
    depsOf dg e.name = e.deps := by
  unfold depsOf
  rw [lookupEdge_eq_of_mem dg hnd e he]
  rfl

theorem depsOf_ne_nil_mem (dg : DependencyGraph T) (x d : T)
    (h : d ∈ depsOf dg x) : ∃ e ∈ dg.edges, e.name = x ∧ d ∈ e.deps := by
  unfold depsOf lookupEdge at h
  cases hf : dg.edges.find? (fun e => decide (e.name = x)) with
  | none => rw [hf] at h; simp at h
  | some e =>
    rw [hf] at h
    refine ⟨e, List.mem_of_find?_eq_some hf, ?_, h⟩
    have := List.find?_some hf
    simpa using this

/-- `collect` over a pure-element trace: every element is gathered. -/
theorem collect_elems (ys acc : List T) :
    collect (ys.map Yield.elem) acc = (acc ++ ys, none) := by
  induction ys generalizing acc with
  | nil => simp [collect]
  | cons y t ih => simp [collect, ih]

/-- `collect` over an element trace followed by an error pair: everything
is discarded. -/
theorem collect_elems_fail (ys acc : List T) (e : ResolveErr T) :
    collect (ys.map Yield.elem ++ [Yield.fail e]) acc = ([], some e) := by
  induction ys generalizing acc with
  | nil => simp [collect]
  | cons y t ih => simp [collect, ih]

/-- Membership in a `take` bounds `indexOf`. -/
theorem indexOf_lt_of_mem_take (l : List T) (n : Nat) (a : T) (h : a ∈ l.take n) :
    l.indexOf a < n := by
  induction l generalizing n with
  | nil => simp at h
  | cons x t ih =>
    cases n with
    | zero => simp at h
    | succ m =>
      simp only [List.take_succ_cons, List.mem_cons] at h
      by_cases hax : a = x
      · subst hax; simp [List.indexOf_cons_self]
      · rcases h with rfl | h
        · exact absurd rfl hax
        · rw [List.indexOf_cons_ne _ (fun he => hax he.symm)]
          have := ih m h
          omega

/-! ### The stable-partition pass -/

theorem take_congr_of_getElem? (l1 l2 : List α) (n : Nat)
    (h : ∀ k, k < n → l1[k]? = l2[k]?) : l1.take n = l2.take n := by
  apply List.ext_getElem?
  intro k
  rw [List.getElem?_take, List.getElem?_take]
  by_cases hk : k < n
  · simp only [hk, if_true]
    exact h k hk
  · simp [hk]

theorem drop_congr_of_getElem? (l1 l2 : List α) (n : Nat)
    (h : ∀ k, n ≤ k → l1[k]? = l2[k]?) : l1.drop n = l2.drop n := by
  apply List.ext_getElem?
  intro k
  rw [List.getElem?_drop, List.getElem?_drop]
  exact h (n + k) (by omega)

/-- Taking one past the swap target picks up the swapped-in element. -/
theorem take_succ_listSwap (edges : List (depEdge T)) (fmax i : Nat) (e : depEdge T)
    (hfi : fmax ≤ i) (hi : edges[i]? = some e) :
    (listSwap edges fmax i).take (fmax + 1) = edges.take fmax ++ [e] := by
  have hilen : i < edges.length := (List.getElem?_eq_some.mp hi).1
  have hflen : fmax < edges.length := by omega
  have hfm : edges[fmax]? = some edges[fmax] := List.getElem?_eq_getElem hflen
  have h1 : (List.take fmax edges).length = fmax := by
    rw [List.length_take]; omega
  apply List.ext_getElem?
  intro k
  rw [List.getElem?_take, List.getElem?_append, h1]
  by_cases hk : k < fmax + 1
  · by_cases hkf : k < fmax
    · rw [listSwap_getElem?_of_ne _ _ _ _ (by omega) (by omega)]
      simp [hk, hkf, List.getElem?_take]
    · have hkeq : k = fmax := by omega
      rw [hkeq, listSwap_getElem?_left edges fmax i _ e hfm hi]
      simp
  · have hkf : ¬ k < fmax := by omega
    simp only [hk, if_false, hkf]
    symm
    rw [List.getElem?_eq_none_iff]
    simp
    omega

theorem promote_zero (edges : List (depEdge T)) (fmax i : Nat) :
    promote edges fmax i 0 = (edges, fmax) := rfl

theorem promote_succ (edges : List (depEdge T)) (fmax i fuel : Nat) :
    promote edges fmax i (fuel + 1) =
      match edges[i]? with
      | none => (edges, fmax)
      | some e =>
        if e.deps.length = 0 then
          promote (listSwap edges fmax i) (fmax + 1) (i + 1) fuel
        else
          promote edges fmax (i + 1) fuel := rfl

theorem promote_succ_none (edges : List (depEdge T)) (fmax i fuel : Nat)
    (h : edges[i]? = none) : promote edges fmax i (fuel + 1) = (edges, fmax) := by
  rw [promote_succ, h]

theorem promote_succ_some (edges : List (depEdge T)) (fmax i fuel : Nat) (e : depEdge T)
    (h : edges[i]? = some e) :
    promote edges fmax i (fuel + 1) =
      if e.deps.length = 0 then
        promote (listSwap edges fmax i) (fmax + 1) (i + 1) fuel
      else
        promote edges fmax (i + 1) fuel := by
  rw [promote_succ, h]

/-- Full behaviour of the stable-partition pass `promote`: it permutes the
slice, leaves the already-promoted front `[0, fmax)` alone, extends it with
exactly the dependency-free records of the unexamined region in their
original relative order, and leaves only records with dependencies beyond
the new boundary. -/
theorem promote_spec : ∀ (fuel : Nat) (edges : List (depEdge T)) (fmax i : Nat),
    edges.length ≤ i + fuel →
    fmax ≤ i →
    (∀ k e, fmax ≤ k → k < i → edges[k]? = some e → e.deps.length ≠ 0) →
    (∀ k e, k < fmax → edges[k]? = some e → e.deps.length = 0) →
    (promote edges fmax i fuel).1.length = edges.length ∧
    (promote edges fmax i fuel).1.Perm edges ∧
    fmax ≤ (promote edges fmax i fuel).2 ∧
    (promote edges fmax i fuel).2 ≤ max fmax edges.length ∧
    (∀ k, k < fmax → (promote edges fmax i fuel).1[k]? = edges[k]?) ∧
    ((promote edges fmax i fuel).1.take (promote edges fmax i fuel).2
        = edges.take fmax ++ ((edges.drop i).filter fun e => decide (e.deps.length = 0))) ∧
    (∀ k e, (promote edges fmax i fuel).2 ≤ k → (promote edges fmax i fuel).1[k]? = some e →
        e.deps.length ≠ 0) := by
  intro fuel
  induction fuel with
  | zero =>
    intro edges fmax i hfuel hfi hpend hfree
    rw [promote_zero]
    have hdrop : edges.drop i = [] := List.drop_eq_nil_of_le (by omega)
    refine ⟨rfl, List.Perm.refl _, Nat.le_refl _, by omega, fun k _ => rfl, by simp [hdrop], ?_⟩
    intro k e hk hke
    have hkl : k < edges.length := by simpa using (List.getElem?_eq_some.mp hke).1
    exact hpend k e hk (by omega) hke
  | succ fuel ih =>
    intro edges fmax i hfuel hfi hpend hfree
    cases hl : edges[i]? with
    | none =>
      rw [promote_succ_none edges fmax i fuel hl]
      have hlen : edges.length ≤ i := List.getElem?_eq_none_iff.mp hl
      have hdrop : edges.drop i = [] := List.drop_eq_nil_of_le hlen
      refine ⟨rfl, List.Perm.refl _, Nat.le_refl _, by omega, fun k _ => rfl, by simp [hdrop], ?_⟩
      intro k e hk hke
      have hkl : k < edges.length := by simpa using (List.getElem?_eq_some.mp hke).1
      exact hpend k e hk (by omega) hke
    | some e =>
      rw [promote_succ_some edges fmax i fuel e hl]
      have hilen : i < edges.length := (List.getElem?_eq_some.mp hl).1
      have hdropc : edges.drop i = e :: edges.drop (i + 1) := by
        rw [List.drop_eq_getElem_cons hilen, (List.getElem?_eq_some.mp hl).2]
      by_cases hdeps : e.deps.length = 0
      · -- free: swap it to the boundary and recurse
        rw [if_pos hdeps]
        have hswlen : (listSwap edges fmax i).length = edges.length := length_listSwap ..
        have hflen : fmax < edges.length := by omega
        have hfm : edges[fmax]? = some edges[fmax] := List.getElem?_eq_getElem hflen
        have hih := ih (listSwap edges fmax i) (fmax + 1) (i + 1)
          (by omega) (by omega)
          (by
            intro k ek hk1 hk2 hke
            by_cases hki : k = i
            · rw [hki, listSwap_getElem?_right edges fmax i _ e hfm hl] at hke
              have hfi2 : fmax < i := by omega
              simp only [Option.some_inj] at hke
              subst hke
              exact hpend fmax edges[fmax] (Nat.le_refl _) hfi2 hfm
            · rw [listSwap_getElem?_of_ne _ _ _ _ (by omega) hki] at hke
              exact hpend k ek (by omega) (by omega) hke)
          (by
            intro k ek hk hke
            by_cases hkf : k = fmax
            · rw [hkf, listSwap_getElem?_left edges fmax i _ e hfm hl] at hke
              simp only [Option.some_inj] at hke
              subst hke
              exact hdeps
            · rw [listSwap_getElem?_of_ne _ _ _ _ hkf (by omega)] at hke
              exact hfree k ek (by omega) hke)
        obtain ⟨c1, c2, c3, c4, c5, c6, c7⟩ := hih
        rw [hswlen] at c4
        refine ⟨by rw [c1, hswlen], c2.trans (listSwap_perm ..), by omega, by omega, ?_, ?_, c7⟩
        · intro k hk
          rw [c5 k (by omega)]
          exact listSwap_getElem?_of_ne _ _ _ _ (by omega) (by omega)
        · rw [c6]
          rw [take_succ_listSwap edges fmax i e hfi hl]
          have hdropsw : (listSwap edges fmax i).drop (i + 1) = edges.drop (i + 1) := by
            apply drop_congr_of_getElem?
            intro k hk
            exact listSwap_getElem?_of_ne _ _ _ _ (by omega) (by omega)
          rw [hdropsw, hdropc]
          rw [List.filter_cons_of_pos (by simp [hdeps])]
          simp
      · -- not free: step past it
        rw [if_neg hdeps]
        have hih := ih edges fmax (i + 1) (by omega) (by omega)
          (by
            intro k ek hk1 hk2 hke
            by_cases hki : k = i
            · subst hki
              rw [hl] at hke
              simp only [Option.some_inj] at hke
              subst hke
              exact hdeps
            · exact hpend k ek hk1 (by omega) hke)
          hfree
        obtain ⟨c1, c2, c3, c4, c5, c6, c7⟩ := hih
        refine ⟨c1, c2, c3, by omega, c5, ?_, c7⟩
        rw [c6, hdropc]
        rw [List.filter_cons_of_neg (by simp [hdeps])]

/-! ### The inner scan -/

theorem mem_of_getElem?_eq_some (l : List α) (k : Nat) (a : α) (h : l[k]? = some a) : a ∈ l := by
  obtain ⟨hlt, heq⟩ := List.getElem?_eq_some.mp h
  exact heq ▸ List.getElem_mem hlt

theorem scan_zero (cur : T) (edges : List (depEdge T)) (rc : T → Int) (fmax i : Nat) :
    scan cur edges rc fmax i 0 = (edges, rc, fmax) := rfl

theorem scan_succ (cur : T) (edges : List (depEdge T)) (rc : T → Int) (fmax i fuel : Nat) :
    scan cur edges rc fmax i (fuel + 1) =
      match edges[i]? with
      | none => (edges, rc, fmax)
      | some e =>
        if cur ∈ e.deps then
          if rcDec rc e.name e.name = 0 then
            scan cur (listSwap edges fmax i) (rcDec rc e.name) (fmax + 1) (i + 1) fuel
          else
            scan cur edges (rcDec rc e.name) fmax (i + 1) fuel
        else
          scan cur edges rc fmax (i + 1) fuel := rfl

theorem scan_succ_none (cur : T) (edges : List (depEdge T)) (rc : T → Int) (fmax i fuel : Nat)
    (h : edges[i]? = none) : scan cur edges rc fmax i (fuel + 1) = (edges, rc, fmax) := by
  rw [scan_succ, h]

theorem scan_succ_some (cur : T) (edges : List (depEdge T)) (rc : T → Int) (fmax i fuel : Nat)
    (e : depEdge T) (h : edges[i]? = some e) :
    scan cur edges rc fmax i (fuel + 1) =
      if cur ∈ e.deps then
        if rcDec rc e.name e.name = 0 then
          scan cur (listSwap edges fmax i) (rcDec rc e.name) (fmax + 1) (i + 1) fuel
        else
          scan cur edges (rcDec rc e.name) fmax (i + 1) fuel
      else
        scan cur edges rc fmax (i + 1) fuel := by
  rw [scan_succ, h]

/-- Full behaviour of the inner scan: it permutes the slice, never touches
the entry free region `[0, fmax)`, keeps reference counts of free records
non-positive with all their dependencies already produced, and keeps the
reference count of every record beyond the final boundary equal to its
number of still-unproduced dependencies (a positive number).
`acc` is the output produced before the current element `cur`. -/
theorem scan_spec (cur : T) (acc : List T) (hcur : cur ∉ acc) :
    ∀ (fuel : Nat) (edges : List (depEdge T)) (rc : T → Int) (fmax i : Nat),
    edges.length ≤ i + fuel →
    (edges.map depEdge.name).Nodup →
    (∀ e ∈ edges, e.deps.Nodup) →
    fmax ≤ edges.length →
    (∀ k e, k < fmax → k < i → edges[k]? = some e →
        rc e.name ≤ 0 ∧ ∀ d ∈ e.deps, d ∈ acc ++ [cur]) →
    (∀ k e, k < fmax → i ≤ k → edges[k]? = some e →
        rc e.name ≤ 0 ∧ ∀ d ∈ e.deps, d ∈ acc) →
    (∀ k e, fmax ≤ k → k < i → edges[k]? = some e →
        rc e.name = (pendCount e.deps (acc ++ [cur]) : Int) ∧
        0 < pendCount e.deps (acc ++ [cur])) →
    (∀ k e, fmax ≤ k → i ≤ k → edges[k]? = some e →
        rc e.name = (pendCount e.deps acc : Int) ∧ 0 < pendCount e.deps acc) →
    (scan cur edges rc fmax i fuel).1.length = edges.length ∧
    (scan cur edges rc fmax i fuel).1.Perm edges ∧
    fmax ≤ (scan cur edges rc fmax i fuel).2.2 ∧
    (scan cur edges rc fmax i fuel).2.2 ≤ edges.length ∧
    (∀ k, k < fmax → (scan cur edges rc fmax i fuel).1[k]? = edges[k]?) ∧
    (∀ k e, k < (scan cur edges rc fmax i fuel).2.2 →
        (scan cur edges rc fmax i fuel).1[k]? = some e →
        (scan cur edges rc fmax i fuel).2.1 e.name ≤ 0 ∧ ∀ d ∈ e.deps, d ∈ acc ++ [cur]) ∧
    (∀ k e, (scan cur edges rc fmax i fuel).2.2 ≤ k →
        (scan cur edges rc fmax i fuel).1[k]? = some e →
        (scan cur edges rc fmax i fuel).2.1 e.name = (pendCount e.deps (acc ++ [cur]) : Int) ∧
        0 < pendCount e.deps (acc ++ [cur])) := by
  intro fuel
  induction fuel with
  | zero =>
    intro edges rc fmax i hfuel hnd hdnd hfm hfb hfa hpb hpa
    rw [scan_zero]
    refine ⟨rfl, List.Perm.refl _, Nat.le_refl _, hfm, fun k _ => rfl, ?_, ?_⟩
    · intro k e hk hke
      have hkl : k < edges.length := by simpa using (List.getElem?_eq_some.mp hke).1
      exact hfb k e hk (by omega) hke
    · intro k e hk hke
      have hkl : k < edges.length := by simpa using (List.getElem?_eq_some.mp hke).1
      exact hpb k e hk (by omega) hke
  | succ fuel ih =>
    intro edges rc fmax i hfuel hnd hdnd hfm hfb hfa hpb hpa
    cases hl : edges[i]? with
    | none =>
      rw [scan_succ_none cur edges rc fmax i fuel hl]
      have hlen : edges.length ≤ i := List.getElem?_eq_none_iff.mp hl
      refine ⟨rfl, List.Perm.refl _, Nat.le_refl _, hfm, fun k _ => rfl, ?_, ?_⟩
      · intro k e hk hke
        have hkl : k < edges.length := by simpa using (List.getElem?_eq_some.mp hke).1
        exact hfb k e hk (by omega) hke
      · intro k e hk hke
        have hkl : k < edges.length := by simpa using (List.getElem?_eq_some.mp hke).1
        exact hpb k e hk (by omega) hke
    | some e =>
      rw [scan_succ_some cur edges rc fmax i fuel e hl]
      have hilen : i < edges.length := (List.getElem?_eq_some.mp hl).1
      have hemem : e ∈ edges := mem_of_getElem?_eq_some edges i e hl
      have hne_at : ∀ k ek, edges[k]? = some ek → k ≠ i → ek.name ≠ e.name :=
        fun k ek hk hki => name_ne_of_ne_pos edges hnd k i ek e hk hl hki
      by_cases hdep : cur ∈ e.deps
      · rw [if_pos hdep]
        -- a free record cannot depend on the element just produced
        have hif : fmax ≤ i := by
          by_contra hc
          push_neg at hc
          exact hcur ((hfa i e hc (Nat.le_refl _) hl).2 cur hdep)
        have hrc := hpa i e hif (Nat.le_refl _) hl
        have hpc := pendCount_append_of_mem e.deps acc cur (hdnd e hemem) hdep hcur
        have hdec : rcDec rc e.name e.name = (pendCount e.deps (acc ++ [cur]) : Int) := by
          rw [rcDec_self, hrc.1]
          omega
        by_cases hz : rcDec rc e.name e.name = 0
        · rw [if_pos hz]
          have hpz : pendCount e.deps (acc ++ [cur]) = 0 := by
            rw [hdec] at hz
            exact_mod_cast hz
          have hsub : ∀ d ∈ e.deps, d ∈ acc ++ [cur] := (pendCount_eq_zero_iff _ _).mp hpz
          have hswlen : (listSwap edges fmax i).length = edges.length := length_listSwap ..
          have hflen : fmax < edges.length := by omega
          have hfm2 : edges[fmax]? = some edges[fmax] := List.getElem?_eq_getElem hflen
          have hperm := listSwap_perm edges fmax i
          have hih := ih (listSwap edges fmax i) (rcDec rc e.name) (fmax + 1) (i + 1)
            (by rw [hswlen]; omega)
            ((hperm.map depEdge.name).nodup_iff.mpr hnd)
            (fun ek hk => hdnd ek (hperm.mem_iff.mp hk))
            (by rw [hswlen]; omega)
            (by
              intro k ek hk1 hk2 hke
              by_cases hkf : k = fmax
              · rw [hkf, listSwap_getElem?_left edges fmax i _ e hfm2 hl] at hke
                simp only [Option.some_inj] at hke
                subst hke
                rw [rcDec_self]
                constructor
                · rw [hrc.1]; omega
                · exact hsub
              · rw [listSwap_getElem?_of_ne _ _ _ _ hkf (by omega)] at hke
                have hold := hfb k ek (by omega) (by omega) hke
                rw [rcDec_ne rc e.name ek.name (hne_at k ek hke (by omega))]
                exact hold)
            (by
              intro k ek hk1 hk2 hke
              exact absurd hk2 (by omega))
            (by
              intro k ek hk1 hk2 hke
              by_cases hki : k = i
              · rw [hki, listSwap_getElem?_right edges fmax i _ e hfm2 hl] at hke
                simp only [Option.some_inj] at hke
                subst hke
                have hold := hpb fmax edges[fmax] (Nat.le_refl _) (by omega) hfm2
                rw [rcDec_ne rc e.name _ (hne_at fmax edges[fmax] hfm2 (by omega))]
                exact hold
              · rw [listSwap_getElem?_of_ne _ _ _ _ (by omega) hki] at hke
                have hold := hpb k ek (by omega) (by omega) hke
                rw [rcDec_ne rc e.name ek.name (hne_at k ek hke hki)]
                exact hold)
            (by
              intro k ek hk1 hk2 hke
              rw [listSwap_getElem?_of_ne _ _ _ _ (by omega) (by omega)] at hke
              have hold := hpa k ek (by omega) (by omega) hke
              rw [rcDec_ne rc e.name ek.name (hne_at k ek hke (by omega))]
              exact hold)
          obtain ⟨c1, c2, c3, c4, c5, c6, c7⟩ := hih
          rw [hswlen] at c4
          refine ⟨by rw [c1, hswlen], c2.trans hperm, by omega, c4, ?_, c6, c7⟩
          intro k hk
          rw [c5 k (by omega)]
          exact listSwap_getElem?_of_ne _ _ _ _ (by omega) (by omega)
        · rw [if_neg hz]
          have hih := ih edges (rcDec rc e.name) fmax (i + 1)
            (by omega) hnd hdnd hfm
            (by
              intro k ek hk1 hk2 hke
              have hold := hfb k ek hk1 (by omega) hke
              rw [rcDec_ne rc e.name ek.name (hne_at k ek hke (by omega))]
              exact hold)
            (by
              intro k ek hk1 hk2 hke
              exact absurd hk2 (by omega))
            (by
              intro k ek hk1 hk2 hke
              by_cases hki : k = i
              · rw [hki, hl] at hke
                simp only [Option.some_inj] at hke
                subst hke
                rw [hdec]
                constructor
                · rfl
                · rw [hdec] at hz
                  by_contra hc
                  push_neg at hc
                  have : pendCount e.deps (acc ++ [cur]) = 0 := by omega
                  rw [this] at hz
                  exact hz (by simp)
              · rw [rcDec_ne rc e.name ek.name (hne_at k ek hke hki)]
                exact hpb k ek hk1 (by omega) hke)
            (by
              intro k ek hk1 hk2 hke
              rw [rcDec_ne rc e.name ek.name (hne_at k ek hke (by omega))]
              exact hpa k ek hk1 (by omega) hke)
          exact hih
      · rw [if_neg hdep]
        have hih := ih edges rc fmax (i + 1)
          (by omega) hnd hdnd hfm
          (by
            intro k ek hk1 hk2 hke
            by_cases hki : k = i
            · rw [hki, hl] at hke
              simp only [Option.some_inj] at hke
              subst hke
              have hold := hfa i e (hki ▸ hk1) (Nat.le_refl i) hl
              exact ⟨hold.1, fun d hd => List.mem_append_left _ (hold.2 d hd)⟩
            · exact hfb k ek hk1 (by omega) hke)
          (fun k ek hk1 hk2 hke => hfa k ek hk1 (by omega) hke)
          (by
            intro k ek hk1 hk2 hke
            by_cases hki : k = i
            · rw [hki, hl] at hke
              simp only [Option.some_inj] at hke
              subst hke
              have hold := hpa i e (hki ▸ hk1) (Nat.le_refl i) hl
              rw [pendCount_append_of_not_mem e.deps acc cur hdep]
              exact hold
            · exact hpb k ek hk1 (by omega) hke)
          (fun k ek hk1 hk2 hke => hpa k ek hk1 (by omega) hke)
        exact hih

/-! ### The outer produce loop -/

/-- Topological soundness of an output list with respect to a dependency
assignment `D`: every element's dependencies occur strictly before it. -/
def Topo (D : T → List T) (out : List T) : Prop :=
  ∀ (k : Nat) (hk : k < out.length), ∀ d ∈ D out[k], d ∈ out.take k

theorem Topo_nil (D : T → List T) : Topo D [] := by
  intro k hk
  simp at hk

theorem Topo_append (D : T → List T) (out : List T) (cur : T)
    (h : Topo D out) (hc : ∀ d ∈ D cur, d ∈ out) : Topo D (out ++ [cur]) := by
  intro k hk d hd
  have hlen : (out ++ [cur]).length = out.length + 1 := by simp
  by_cases hko : k < out.length
  · have hget : (out ++ [cur])[k] = out[k] := List.getElem_append_left hko
    rw [hget] at hd
    have hmem := h k hko d hd
    rw [List.take_append_of_le_length (by omega)]
    exact hmem
  · have hk1 : k = out.length := by omega
    have hget : (out ++ [cur])[k] = cur := by
      subst hk1
      simp
    rw [hget] at hd
    rw [List.take_append_of_le_length (by omega)]
    have hout := hc d hd
    subst hk1
    rw [List.take_length]
    exact hout

/-- The element at the cursor is not among the already-produced names. -/
theorem name_not_in_front (edges : List (depEdge T))
    (hnd : (edges.map depEdge.name).Nodup) (fcur : Nat) (e : depEdge T)
    (he : edges[fcur]? = some e) :
    e.name ∉ (edges.take fcur).map depEdge.name := by
  intro hmem
  obtain ⟨ek, hek, heq⟩ := List.mem_map.mp hmem
  obtain ⟨k, hkek⟩ := List.mem_iff_get.mp hek
  have hklt : (k : Nat) < fcur := by
    have hk2 := k.isLt
    simp [List.length_take] at hk2
    omega
  have h1 : (edges.take fcur)[(k : Nat)]? = some ek := by
    rw [List.getElem?_eq_getElem k.isLt]
    simp only [List.get_eq_getElem] at hkek
    rw [hkek]
  have hkedge : edges[(k : Nat)]? = some ek := by
    rw [List.getElem?_take] at h1
    simpa [hklt] using h1
  exact name_ne_of_ne_pos edges hnd (k : Nat) fcur ek e hkedge he (by omega) heq

theorem mainLoop_zero (edges : List (depEdge T)) (rc : T → Int) (fmax fcur : Nat)
    (budget : Option Nat) (acc : List T) :
    mainLoop edges rc fmax fcur budget acc 0 = ⟨acc, false, edges, rc, fmax, fcur⟩ := rfl

theorem mainLoop_succ (edges : List (depEdge T)) (rc : T → Int) (fmax fcur : Nat)
    (budget : Option Nat) (acc : List T) (fuel : Nat) :
    mainLoop edges rc fmax fcur budget acc (fuel + 1) =
      if fcur < fmax then
        match edges[fcur]? with
        | none => ⟨acc, false, edges, rc, fmax, fcur⟩
        | some e =>
          match budget with
          | some 0 => ⟨acc ++ [e.name], true, edges, rc, fmax, fcur⟩
          | _ =>
            mainLoop (scan e.name edges rc fmax (fcur + 1) edges.length).1
              (scan e.name edges rc fmax (fcur + 1) edges.length).2.1
              (scan e.name edges rc fmax (fcur + 1) edges.length).2.2
              (fcur + 1) (budget.map fun b => b - 1) (acc ++ [e.name]) fuel
      else ⟨acc, false, edges, rc, fmax, fcur⟩ := rfl

theorem mainLoop_succ_done (edges : List (depEdge T)) (rc : T → Int) (fmax fcur : Nat)
    (budget : Option Nat) (acc : List T) (fuel : Nat) (h : ¬ fcur < fmax) :
    mainLoop edges rc fmax fcur budget acc (fuel + 1) = ⟨acc, false, edges, rc, fmax, fcur⟩ := by
  rw [mainLoop_succ, if_neg h]

theorem mainLoop_succ_stop (edges : List (depEdge T)) (rc : T → Int) (fmax fcur : Nat)
    (acc : List T) (fuel : Nat) (e : depEdge T) (h : fcur < fmax) (he : edges[fcur]? = some e) :
    mainLoop edges rc fmax fcur (some 0) acc (fuel + 1)
      = ⟨acc ++ [e.name], true, edges, rc, fmax, fcur⟩ := by
  rw [mainLoop_succ, if_pos h, he]

theorem mainLoop_succ_cont (edges : List (depEdge T)) (rc : T → Int) (fmax fcur : Nat)
    (budget : Option Nat) (acc : List T) (fuel : Nat) (e : depEdge T)
    (h : fcur < fmax) (he : edges[fcur]? = some e) (hb : budget ≠ some 0) :
    mainLoop edges rc fmax fcur budget acc (fuel + 1) =
      mainLoop (scan e.name edges rc fmax (fcur + 1) edges.length).1
        (scan e.name edges rc fmax (fcur + 1) edges.length).2.1
        (scan e.name edges rc fmax (fcur + 1) edges.length).2.2
        (fcur + 1) (budget.map fun b => b - 1) (acc ++ [e.name]) fuel := by
  rw [mainLoop_succ, if_pos h, he]
  cases budget with
  | none => rfl
  | some b =>
    cases b with
    | zero => exact absurd rfl hb
    | succ b2 => rfl

/-- Full behaviour of the produce/scan loop, relative to a fixed dependency
assignment `D` agreeing with the records.  The loop preserves the slice as
a permutation and never touches positions below the entry boundary; when it
is not cancelled it ends with the cursor at the boundary, its output being
exactly the names of the slice prefix below the final cursor, and that
output is topologically sound.  A consumer that never stops
(`budget = none`) never makes the loop report a cancellation. -/
theorem mainLoop_spec (D : T → List T) :
    ∀ (fuel : Nat) (edges : List (depEdge T)) (rc : T → Int) (fmax fcur : Nat)
      (budget : Option Nat) (acc : List T),
    edges.length ≤ fcur + fuel →
    (edges.map depEdge.name).Nodup →
    (∀ e ∈ edges, e.deps.Nodup) →
    (∀ e ∈ edges, e.deps = D e.name) →
    fcur ≤ fmax →
    fmax ≤ edges.length →
    acc = (edges.take fcur).map depEdge.name →
    (∀ k e, k < fmax → edges[k]? = some e → rc e.name ≤ 0 ∧ ∀ d ∈ e.deps, d ∈ acc) →
    (∀ k e, fmax ≤ k → edges[k]? = some e →
        rc e.name = (pendCount e.deps acc : Int) ∧ 0 < pendCount e.deps acc) →
    Topo D acc →
    (mainLoop edges rc fmax fcur budget acc fuel).edges.length = edges.length ∧
    (mainLoop edges rc fmax fcur budget acc fuel).edges.Perm edges ∧
    (∀ k, k < fmax → (mainLoop edges rc fmax fcur budget acc fuel).edges[k]? = edges[k]?) ∧
    (mainLoop edges rc fmax fcur budget acc fuel).fcur
      ≤ (mainLoop edges rc fmax fcur budget acc fuel).fmax ∧
    (mainLoop edges rc fmax fcur budget acc fuel).fmax ≤ edges.length ∧
    fmax ≤ (mainLoop edges rc fmax fcur budget acc fuel).fmax ∧
    ((mainLoop edges rc fmax fcur budget acc fuel).stopped = false →
      (mainLoop edges rc fmax fcur budget acc fuel).out
        = ((mainLoop edges rc fmax fcur budget acc fuel).edges.take
            (mainLoop edges rc fmax fcur budget acc fuel).fcur).map depEdge.name ∧
      (mainLoop edges rc fmax fcur budget acc fuel).fcur
        = (mainLoop edges rc fmax fcur budget acc fuel).fmax ∧
      Topo D (mainLoop edges rc fmax fcur budget acc fuel).out) ∧
    (budget = none → (mainLoop edges rc fmax fcur budget acc fuel).stopped = false) := by
  intro fuel
  induction fuel with
  | zero =>
    intro edges rc fmax fcur budget acc hfuel hnd hdnd hD hcf hfm hacc hfree hpend htopo
    rw [mainLoop_zero]
    refine ⟨rfl, List.Perm.refl _, fun k _ => rfl, hcf, hfm, Nat.le_refl _, ?_, fun _ => rfl⟩
    intro _
    exact ⟨hacc, (by omega : fcur = fmax), hacc ▸ htopo⟩
  | succ fuel ih =>
    intro edges rc fmax fcur budget acc hfuel hnd hdnd hD hcf hfm hacc hfree hpend htopo
    by_cases hflt : fcur < fmax
    · cases he : edges[fcur]? with
      | none =>
        have : edges.length ≤ fcur := List.getElem?_eq_none_iff.mp he
        omega
      | some e =>
        have hemem : e ∈ edges := mem_of_getElem?_eq_some edges fcur e he
        have hcurnot : e.name ∉ acc := hacc ▸ name_not_in_front edges hnd fcur e he
        by_cases hbz : budget = some 0
        · rw [hbz, mainLoop_succ_stop edges rc fmax fcur acc fuel e hflt he]
          refine ⟨rfl, List.Perm.refl _, fun k _ => rfl, hcf, hfm, Nat.le_refl _, ?_, ?_⟩
          · intro hstop
            exact absurd hstop (by simp)
          · intro hcon
            simp at hcon
        · rw [mainLoop_succ_cont edges rc fmax fcur budget acc fuel e hflt he hbz]
          have hfreeC := hfree fcur e hflt he
          have hdepsub : ∀ d ∈ e.deps, d ∈ acc := hfreeC.2
          have hsc := scan_spec e.name acc hcurnot edges.length edges rc fmax (fcur + 1)
            (by omega) hnd hdnd hfm
            (fun k ek hk1 hk2 hke =>
              ⟨(hfree k ek hk1 hke).1,
               fun d hd => List.mem_append_left _ ((hfree k ek hk1 hke).2 d hd)⟩)
            (fun k ek hk1 hk2 hke => hfree k ek hk1 hke)
            (fun k ek hk1 hk2 hke => absurd hk2 (by omega))
            (fun k ek hk1 hk2 hke => hpend k ek hk1 hke)
          obtain ⟨s1, s2, s3, s4, s5, s6, s7⟩ := hsc
          have hsperm := s2
          have htake : (scan e.name edges rc fmax (fcur + 1) edges.length).1.take (fcur + 1)
              = edges.take (fcur + 1) :=
            take_congr_of_getElem? _ _ _ (fun k hk => s5 k (by omega))
          have htakes : edges.take (fcur + 1) = edges.take fcur ++ [e] := by
            rw [List.take_succ, he]
            rfl
          have hacc2 : acc ++ [e.name]
              = ((scan e.name edges rc fmax (fcur + 1) edges.length).1.take (fcur + 1)).map
                  depEdge.name := by
            rw [htake, htakes, List.map_append, hacc]
            rfl
          have htopo2 : Topo D (acc ++ [e.name]) := by
            apply Topo_append D acc e.name htopo
            intro d hd
            rw [← hD e hemem] at hd
            exact hdepsub d hd
          have hihap := ih (scan e.name edges rc fmax (fcur + 1) edges.length).1
            (scan e.name edges rc fmax (fcur + 1) edges.length).2.1
            (scan e.name edges rc fmax (fcur + 1) edges.length).2.2
            (fcur + 1) (budget.map fun b => b - 1) (acc ++ [e.name])
            (by omega)
            ((hsperm.map depEdge.name).nodup_iff.mpr hnd)
            (fun ek hk => hdnd ek (hsperm.mem_iff.mp hk))
            (fun ek hk => hD ek (hsperm.mem_iff.mp hk))
            (by omega)
            (by rw [s1]; exact s4)
            hacc2
            s6
            s7
            htopo2
          obtain ⟨m1, m2, m3, m4, m5, m6, m7, m8⟩ := hihap
          refine ⟨by rw [m1, s1], m2.trans hsperm, ?_, m4, by rw [s1] at m5; exact m5,
            le_trans s3 m6, m7, ?_⟩
          · intro k hk
            rw [m3 k (by omega)]
            exact s5 k (by omega)
          · intro hbn
            exact m8 (by rw [hbn]; rfl)
    · rw [mainLoop_succ_done edges rc fmax fcur budget acc fuel hflt]
      refine ⟨rfl, List.Perm.refl _, fun k _ => rfl, hcf, hfm, Nat.le_refl _, ?_, fun _ => rfl⟩
      intro _
      exact ⟨hacc, (by omega : fcur = fmax), hacc ▸ htopo⟩

/-! ### Assembled behaviour of one resolution run -/

/-- The partitioned working slice and free boundary at the start of the
produce loop. -/
def corePromoted (dg : DependencyGraph T) : List (depEdge T) × Nat :=
  promote dg.edges 0 0 dg.edges.length

/-- The final loop state of one `ResolveIter` run against a consumer with
the given budget. -/
def coreLoop (dg : DependencyGraph T) (budget : Option Nat) : LoopRes T :=
  mainLoop (corePromoted dg).1 (initRefcounts dg.edges) (corePromoted dg).2 0 budget []
    (corePromoted dg).1.length

theorem resolveIterRun_invalid (dg : DependencyGraph T) (budget : Option Nat) (d : T)
    (hd : validate dg = some d) :
    resolveIterRun dg budget = ⟨[.fail (.unknownDependency d)], false, dg⟩ := by
  unfold resolveIterRun
  rw [hd]

theorem resolveIterRun_valid (dg : DependencyGraph T) (budget : Option Nat)
    (hv : validate dg = none) :
    resolveIterRun dg budget =
      if (coreLoop dg budget).stopped then
        ⟨(coreLoop dg budget).out.map Yield.elem, true, ⟨(coreLoop dg budget).edges⟩⟩
      else if (coreLoop dg budget).fmax ≠ (coreLoop dg budget).edges.length then
        ⟨(coreLoop dg budget).out.map Yield.elem ++ [.fail .circularDependency], false,
          ⟨(coreLoop dg budget).edges⟩⟩
      else
        ⟨(coreLoop dg budget).out.map Yield.elem, false, ⟨(coreLoop dg budget).edges⟩⟩ := by
  unfold resolveIterRun coreLoop corePromoted
  rw [hv]

/-- Combined behaviour of the working loop of one run, for a reachable
(`Wf`) and validated graph: the slice stays a permutation, the initially
dependency-free records sit at the front of the final slice in insertion
order, and an uncancelled run ends at the boundary with a topologically
sound output that lists exactly the names of the slice prefix. -/
theorem coreLoop_spec (dg : DependencyGraph T) (budget : Option Nat)
    (hwf : Wf dg) (hv : validate dg = none) :
    (coreLoop dg budget).edges.length = dg.edges.length ∧
    (coreLoop dg budget).edges.Perm dg.edges ∧
    (coreLoop dg budget).fcur ≤ (coreLoop dg budget).fmax ∧
    (coreLoop dg budget).fmax ≤ dg.edges.length ∧
    (corePromoted dg).2 ≤ (coreLoop dg budget).fmax ∧
    (corePromoted dg).2 = (dg.edges.filter fun e => decide (e.deps.length = 0)).length ∧
    ((coreLoop dg budget).edges.take (corePromoted dg).2
        = dg.edges.filter fun e => decide (e.deps.length = 0)) ∧
    ((coreLoop dg budget).stopped = false →
      (coreLoop dg budget).out
        = ((coreLoop dg budget).edges.take (coreLoop dg budget).fcur).map depEdge.name ∧
      (coreLoop dg budget).fcur = (coreLoop dg budget).fmax ∧
      Topo (depsOf dg) (coreLoop dg budget).out) ∧
    (budget = none → (coreLoop dg budget).stopped = false) := by
  obtain ⟨hndnames, hdnd⟩ := hwf
  have hnd : (dg.edges.map depEdge.name).Nodup := hndnames
  have hp := promote_spec dg.edges.length dg.edges 0 0 (by omega) (by omega)
    (fun k e hk1 hk2 _ => absurd hk2 (by omega))
    (fun k e hk _ => absurd hk (by omega))
  obtain ⟨p1, p2, p3, p4, p5, p6, p7⟩ := hp
  have hp6 : (corePromoted dg).1.take (corePromoted dg).2
      = dg.edges.filter fun e => decide (e.deps.length = 0) := by
    unfold corePromoted
    rw [p6]
    simp
  have hp4 : (corePromoted dg).2 ≤ dg.edges.length := by
    unfold corePromoted
    omega
  have hp1 : (corePromoted dg).1.length = dg.edges.length := p1
  have hpfree : ∀ k e, k < (corePromoted dg).2 → (corePromoted dg).1[k]? = some e →
      e.deps.length = 0 := by
    intro k e hk hke
    have h1 : ((corePromoted dg).1.take (corePromoted dg).2)[k]? = some e := by
      rw [List.getElem?_take]
      simp [hk, hke]
    rw [hp6] at h1
    have hmem : e ∈ dg.edges.filter fun e => decide (e.deps.length = 0) :=
      mem_of_getElem?_eq_some _ k e h1
    have := (List.mem_filter.mp hmem).2
    simpa using this
  have hpperm : (corePromoted dg).1.Perm dg.edges := p2
  have hm := mainLoop_spec (depsOf dg) (corePromoted dg).1.length (corePromoted dg).1
    (initRefcounts dg.edges) (corePromoted dg).2 0 budget []
    (by omega)
    ((hpperm.map depEdge.name).nodup_iff.mpr hnd)
    (fun e he => hdnd e (hpperm.mem_iff.mp he))
    (fun e he => (depsOf_eq_of_mem dg hndnames e (hpperm.mem_iff.mp he)).symm)
    (by omega)
    (by rw [hp1]; exact hp4)
    (by simp)
    (by
      intro k e hk hke
      have hz := hpfree k e hk hke
      have hemem : e ∈ dg.edges := hpperm.mem_iff.mp (mem_of_getElem?_eq_some _ k e hke)
      constructor
      · rw [initRefcounts_eq dg.edges hnd e hemem, hz]
        simp
      · intro d hd
        rw [List.length_eq_zero.mp hz] at hd
        simp at hd)
    (by
      intro k e hk hke
      have hemem : e ∈ dg.edges := hpperm.mem_iff.mp (mem_of_getElem?_eq_some _ k e hke)
      have hnz : e.deps.length ≠ 0 := p7 k e hk hke
      constructor
      · rw [initRefcounts_eq dg.edges hnd e hemem, pendCount_nil]
      · rw [pendCount_nil]
        omega)
    (Topo_nil _)
  obtain ⟨m1, m2, m3, m4, m5, m6, m7, m8⟩ := hm
  have hm1 : (coreLoop dg budget).edges.length = dg.edges.length := by
    unfold coreLoop
    rw [m1, hp1]
  refine ⟨hm1, m2.trans hpperm, m4, le_trans m5 (le_of_eq hp1), m6, ?_, ?_, m7, m8⟩
  · have hlen : ((corePromoted dg).1.take (corePromoted dg).2).length
        = (corePromoted dg).2 := by
      rw [List.length_take, hp1]
      omega
    rw [hp6] at hlen
    omega
  · have htk : (coreLoop dg budget).edges.take (corePromoted dg).2
        = (corePromoted dg).1.take (corePromoted dg).2 :=
      take_congr_of_getElem? _ _ _ (fun k hk => m3 k hk)
    rw [htk, hp6]

/-- `Resolve` on a graph with an unknown dependency. -/
theorem Resolve_invalid (dg : DependencyGraph T) (d : T) (hd : validate dg = some d) :
    Resolve dg = ([], some (ResolveErr.unknownDependency d)) := by
  unfold Resolve
  rw [resolveIterRun_invalid dg none d hd]
  rfl

/-- `Resolve` on a validated graph whose loop drains every record. -/
theorem Resolve_success (dg : DependencyGraph T) (hwf : Wf dg) (hv : validate dg = none)
    (hfull : (coreLoop dg none).fmax = (coreLoop dg none).edges.length) :
    Resolve dg = ((coreLoop dg none).out, none) := by
  have hc := coreLoop_spec dg none hwf hv
  have hstop : (coreLoop dg none).stopped = false := hc.2.2.2.2.2.2.2.2 rfl
  unfold Resolve
  rw [resolveIterRun_valid dg none hv, hstop]
  rw [if_neg (by simp)]
  rw [if_neg (by simp [hfull])]
  exact collect_elems _ []

/-- `Resolve` on a validated graph whose loop leaves records behind. -/
theorem Resolve_circular (dg : DependencyGraph T) (hwf : Wf dg) (hv : validate dg = none)
    (hfull : (coreLoop dg none).fmax ≠ (coreLoop dg none).edges.length) :
    Resolve dg = ([], some ResolveErr.circularDependency) := by
  have hc := coreLoop_spec dg none hwf hv
  have hstop : (coreLoop dg none).stopped = false := hc.2.2.2.2.2.2.2.2 rfl
  unfold Resolve
  rw [resolveIterRun_valid dg none hv, hstop]
  rw [if_neg (by simp)]
  rw [if_pos hfull]
  exact collect_elems_fail _ [] _

/-- Inversion: a successful `Resolve` comes from a validated graph whose
uncancelled loop drained every record, and returns that loop's output. -/
theorem Resolve_success_inv (dg : DependencyGraph T) (out : List T) (hwf : Wf dg)
    (hres : Resolve dg = (out, none)) :
    validate dg = none ∧ (coreLoop dg none).stopped = false ∧
    (coreLoop dg none).fmax = (coreLoop dg none).edges.length ∧
    out = (coreLoop dg none).out := by
  cases hv : validate dg with
  | some d =>
    rw [Resolve_invalid dg d hv] at hres
    simp at hres
  | none =>
    have hc := coreLoop_spec dg none hwf hv
    have hstop : (coreLoop dg none).stopped = false := hc.2.2.2.2.2.2.2.2 rfl
    by_cases hfull : (coreLoop dg none).fmax = (coreLoop dg none).edges.length
    · rw [Resolve_success dg hwf hv hfull] at hres
      simp only [Prod.mk.injEq] at hres
      exact ⟨rfl, hstop, hfull, hres.1.symm⟩
    · rw [Resolve_circular dg hwf hv hfull] at hres
      simp at hres

/-! ### Graph-store lemmas -/

theorem mem_insertDep (s : List T) (a d : T) : d ∈ insertDep s a ↔ d ∈ s ∨ d = a := by
  unfold insertDep
  by_cases h : a ∈ s
  · rw [if_pos h]
    constructor
    · exact Or.inl
    · rintro (hd | rfl) <;> [exact hd; exact h]
  · rw [if_neg h]
    simp

theorem mem_insertDeps (s l : List T) (d : T) :
    d ∈ insertDeps s l ↔ d ∈ s ∨ d ∈ l := by
  unfold insertDeps
  induction l generalizing s with
  | nil => simp
  | cons a t ih =>
    simp only [List.foldl_cons, List.mem_cons]
    rw [ih, mem_insertDep]
    tauto

theorem nodup_insertDep (s : List T) (a : T) (h : s.Nodup) : (insertDep s a).Nodup := by
  unfold insertDep
  by_cases ha : a ∈ s
  · rw [if_pos ha]
    exact h
  · rw [if_neg ha]
    rw [List.nodup_append]
    refine ⟨h, List.nodup_singleton a, ?_⟩
    intro x hx hxa
    rw [List.mem_singleton] at hxa
    exact ha (hxa ▸ hx)

theorem nodup_insertDeps (s l : List T) (h : s.Nodup) : (insertDeps s l).Nodup := by
  unfold insertDeps
  induction l generalizing s with
  | nil => exact h
  | cons a t ih =>
    simp only [List.foldl_cons]
    exact ih _ (nodup_insertDep s a h)

theorem namesOf_Add (dg : DependencyGraph T) (n : T) (l : List T) :
    namesOf (Add dg n l)
      = if n ∈ namesOf dg then namesOf dg else namesOf dg ++ [n] := by
  unfold Add
  by_cases h : n ∈ namesOf dg
  · rw [if_pos h, if_pos h]
    show (dg.edges.map fun e =>
        if e.name = n then (⟨e.name, insertDeps e.deps l⟩ : depEdge T) else e).map depEdge.name
      = dg.edges.map depEdge.name
    rw [List.map_map]
    apply List.map_congr_left
    intro e _
    by_cases hx : e.name = n <;> simp [hx]
  · rw [if_neg h, if_neg h]
    show (dg.edges ++ [(⟨n, insertDeps [] l⟩ : depEdge T)]).map depEdge.name
      = dg.edges.map depEdge.name ++ [n]
    simp

theorem edges_Add_mem (dg : DependencyGraph T) (n : T) (l : List T) (e : depEdge T)
    (he : e ∈ (Add dg n l).edges) :
    (∃ e0 ∈ dg.edges, e = e0 ∨ (e0.name = n ∧ e = ⟨e0.name, insertDeps e0.deps l⟩)) ∨
      e = ⟨n, insertDeps [] l⟩ := by
  unfold Add at he
  by_cases h : n ∈ namesOf dg
  · rw [if_pos h] at he
    simp only [List.mem_map] at he
    obtain ⟨e0, he0, heq⟩ := he
    by_cases hx : e0.name = n
    · rw [if_pos hx] at heq
      exact Or.inl ⟨e0, he0, Or.inr ⟨hx, heq.symm⟩⟩
    · rw [if_neg hx] at heq
      exact Or.inl ⟨e0, he0, Or.inl heq.symm⟩
  · rw [if_neg h] at he
    simp only [List.mem_append, List.mem_singleton] at he
    rcases he with he | he
    · exact Or.inl ⟨e, he, Or.inl rfl⟩
    · exact Or.inr he

theorem Wf_Add (dg : DependencyGraph T) (n : T) (l : List T) (hwf : Wf dg) :
    Wf (Add dg n l) := by
  obtain ⟨h1, h2⟩ := hwf
  constructor
  · rw [namesOf_Add]
    by_cases h : n ∈ namesOf dg
    · rw [if_pos h]
      exact h1
    · rw [if_neg h]
      rw [List.nodup_append]
      refine ⟨h1, List.nodup_singleton n, ?_⟩
      intro x hx hxn
      rw [List.mem_singleton] at hxn
      exact h (hxn ▸ hx)
  · intro e he
    rcases edges_Add_mem dg n l e he with ⟨e0, he0, heq | ⟨_, heq⟩⟩ | heq
    · exact heq ▸ h2 e0 he0
    · rw [heq]
      exact nodup_insertDeps e0.deps l (h2 e0 he0)
    · rw [heq]
      exact nodup_insertDeps [] l (List.nodup_nil)

theorem Wf_foldAdd : ∀ (ops : List (T × List T)) (g : DependencyGraph T), Wf g →
    Wf (ops.foldl (fun g op => Add g op.1 op.2) g) := by
  intro ops
  induction ops with
  | nil => exact fun g h => h
  | cons op t ih =>
    intro g hg
    simp only [List.foldl_cons]
    exact ih _ (Wf_Add g op.1 op.2 hg)

theorem Wf_buildGraph (ops : List (T × List T)) : Wf (buildGraph ops) :=
  Wf_foldAdd ops (NewDependencyGraph T) ⟨List.nodup_nil, fun e he => by simp [NewDependencyGraph] at he⟩

theorem mem_namesOf_foldAdd : ∀ (ops : List (T × List T)) (g : DependencyGraph T) (x : T),
    x ∈ namesOf (ops.foldl (fun g op => Add g op.1 op.2) g)
      ↔ x ∈ namesOf g ∨ x ∈ ops.map Prod.fst := by
  intro ops
  induction ops with
  | nil => simp
  | cons op t ih =>
    intro g x
    simp only [List.foldl_cons, List.map_cons, List.mem_cons]
    rw [ih, namesOf_Add]
    by_cases h : op.1 ∈ namesOf g
    · rw [if_pos h]
      constructor
      · rintro (hx | hx)
        · exact Or.inl hx
        · exact Or.inr (Or.inr hx)
      · rintro (hx | hx | hx)
        · exact Or.inl hx
        · exact Or.inl (hx ▸ h)
        · exact Or.inr hx
    · rw [if_neg h]
      simp only [List.mem_append, List.mem_singleton]
      tauto

theorem mem_namesOf_buildGraph (ops : List (T × List T)) (x : T) :
    x ∈ namesOf (buildGraph ops) ↔ x ∈ ops.map Prod.fst := by
  unfold buildGraph
  rw [mem_namesOf_foldAdd]
  simp [namesOf, NewDependencyGraph]

/-! ### Further helpers for the claims -/

theorem mem_take_getElem? (l : List α) (k : Nat) (a : α) (h : a ∈ l.take k) :
    ∃ j, j < k ∧ l[j]? = some a := by
  obtain ⟨j, hja⟩ := List.mem_iff_get.mp h
  have hjk : (j : Nat) < k := by
    have := j.isLt
    simp [List.length_take] at this
    omega
  refine ⟨(j : Nat), hjk, ?_⟩
  have h1 : (l.take k)[(j : Nat)]? = some a := by
    rw [List.getElem?_eq_getElem j.isLt]
    simp only [List.get_eq_getElem] at hja
    rw [hja]
  rw [List.getElem?_take] at h1
  simpa [hjk] using h1

theorem length_eq_of_nodup_mem (l1 l2 : List T) (h1 : l1.Nodup) (h2 : l2.Nodup)
    (hm : ∀ x, x ∈ l1 ↔ x ∈ l2) : l1.length = l2.length := by
  rw [← List.toFinset_card_of_nodup h1, ← List.toFinset_card_of_nodup h2]
  congr 1
  ext x
  simp [hm x]

theorem collect_err_nil : ∀ (tr : List (Yield T)) (acc : List T) (e : ResolveErr T),
    (collect tr acc).2 = some e → (collect tr acc).1 = [] := by
  intro tr
  induction tr with
  | nil =>
    intro acc e h
    simp [collect] at h
  | cons y t ih =>
    intro acc e h
    cases y with
    | elem a => exact ih (acc ++ [a]) e h
    | fail e2 => rfl

theorem Resolve_success_perm (dg : DependencyGraph T) (out : List T) (hwf : Wf dg)
    (hres : Resolve dg = (out, none)) : out.Perm (namesOf dg) := by
  obtain ⟨hv, hstop, hfull, hout⟩ := Resolve_success_inv dg out hwf hres
  obtain ⟨hlen, hperm, hcf, hfm, hpf, hpl, htk, hsc, hbc⟩ := coreLoop_spec dg none hwf hv
  obtain ⟨ho, hfc, htp⟩ := hsc hstop
  subst hout
  rw [ho]
  have hfc2 : (coreLoop dg none).fcur = (coreLoop dg none).edges.length := by
    rw [hfc, hfull]
  rw [hfc2, List.take_length]
  exact hperm.map depEdge.name

theorem valid_deps_mem (dg : DependencyGraph T) (hv : validate dg = none) (z d : T)
    (hd : d ∈ depsOf dg z) : d ∈ namesOf dg := by
  obtain ⟨e, he, _, hde⟩ := depsOf_ne_nil_mem dg z d hd
  exact (validate_eq_none_iff dg).mp hv e he d hde

theorem depsOf_eq_of_perm (l1 l2 : List (depEdge T)) (h : l1.Perm l2)
    (hnd : (l2.map depEdge.name).Nodup) (x : T) :
    depsOf ⟨l1⟩ x = depsOf ⟨l2⟩ x := by
  unfold depsOf lookupEdge
  cases hf : l1.find? (fun e => decide (e.name = x)) with
  | none =>
    have h2 : l2.find? (fun e => decide (e.name = x)) = none := by
      rw [List.find?_eq_none] at hf ⊢
      intro e he
      exact hf e (h.mem_iff.mpr he)
    rw [h2]
  | some e =>
    have he1 : e ∈ l1 := List.mem_of_find?_eq_some hf
    have hex : e.name = x := by simpa using List.find?_some hf
    have he2 : e ∈ l2 := h.mem_iff.mp he1
    have h2 := find?_name_eq l2 hnd e he2
    rw [hex] at h2
    rw [h2]

/-! ### Transitive dependence (for the stability claim) -/

/-- `x` reaches `y` through dependency edges in at most `n` steps. -/
def reachesIn (dg : DependencyGraph T) : Nat → T → T → Bool
  | 0, _, _ => false
  | n + 1, x, y =>
    decide (y ∈ depsOf dg x) || (depsOf dg x).any fun d => reachesIn dg n d y

/-- `x` depends, directly or transitively, on `y` (paths of up to
`edges.length` steps cover every dependency chain in the graph). -/
def DependsOn (dg : DependencyGraph T) (x y : T) : Prop :=
  reachesIn dg dg.edges.length x y = true

instance (dg : DependencyGraph T) (x y : T) : Decidable (DependsOn dg x y) := by
  unfold DependsOn
  infer_instance

/-! ### Claims -/

/-- C1.  For every reachable graph state on which `Resolve()` succeeds,
every dependency `d` of an output element occurs strictly before it in the
returned list. -/
theorem claim1_topological_validity (dg : DependencyGraph T) (out : List T)
    (hwf : Wf dg) (hres : Resolve dg = (out, none)) :
    ∀ (k : Nat) (hk : k < out.length), ∀ d ∈ depsOf dg out[k],
      ∃ j, j < k ∧ out[j]? = some d := by
  obtain ⟨hv, hstop, hfull, hout⟩ := Resolve_success_inv dg out hwf hres
  obtain ⟨hlen, hperm, hcf, hfm, hpf, hpl, htk, hsc, hbc⟩ := coreLoop_spec dg none hwf hv
  obtain ⟨ho, hfc, htp⟩ := hsc hstop
  subst hout
  intro k hk d hd
  have hmem := htp k hk d hd
  exact mem_take_getElem? _ k d hmem

theorem claim1_witness :
    ∃ j, j < 1 ∧ ([0, 1] : List Nat)[j]? = some 0 :=
  claim1_topological_validity (buildGraph [((0 : Nat), ([] : List Nat)), (1, [0])]) [0, 1]
    (by decide) (by decide) 1 (by decide) 0 (by decide)

/-- C2.  On success the output lists every distinct element ever passed to
`Add` exactly once, so its length is the number of distinct added names. -/
theorem claim2_totality (ops : List (T × List T)) (out : List T)
    (hres : Resolve (buildGraph ops) = (out, none)) :
    out.Nodup ∧ (∀ x, x ∈ out ↔ x ∈ ops.map Prod.fst) ∧
    out.length = (ops.map Prod.fst).dedup.length := by
  have hwf := Wf_buildGraph ops
  have hperm := Resolve_success_perm (buildGraph ops) out hwf hres
  have hnd : out.Nodup := hperm.nodup_iff.mpr hwf.1
  have hmem : ∀ x, x ∈ out ↔ x ∈ ops.map Prod.fst := by
    intro x
    rw [hperm.mem_iff]
    exact mem_namesOf_buildGraph ops x
  refine ⟨hnd, hmem, ?_⟩
  have h1 : out.length = (namesOf (buildGraph ops)).length := hperm.length_eq
  rw [h1]
  apply length_eq_of_nodup_mem _ _ hwf.1 (List.nodup_dedup _)
  intro x
  rw [List.mem_dedup]
  exact mem_namesOf_buildGraph ops x

theorem claim2_witness :
    ([0, 1] : List Nat).Nodup ∧
    (∀ x, x ∈ ([0, 1] : List Nat) ↔ x ∈ ([(0, []), (1, [0]), (0, [])].map Prod.fst : List Nat)) ∧
    ([0, 1] : List Nat).length
      = (([(0, []), (1, [0]), (0, [])].map Prod.fst : List Nat)).dedup.length :=
  claim2_totality [((0 : Nat), ([] : List Nat)), (1, [0]), (0, [])] [0, 1] (by decide)

/-- C5, counterexample.  The graph built by
`Add(0,1); Add(1); Add(2,1); Add(3)` resolves to `[1, 3, 2, 0]`: the
elements `0` and `2` have no ordering constraint between them (neither
transitively depends on the other) and `0` was inserted first, yet `2`
precedes `0` in the output.  The stable-partition pass displaces pending
records, so insertion order is not preserved among elements freed later. -/
theorem claim5_counterexample :
    Wf (buildGraph [((0 : Nat), [1]), (1, ([] : List Nat)), (2, [1]), (3, [])]) ∧
    Resolve (buildGraph [((0 : Nat), [1]), (1, ([] : List Nat)), (2, [1]), (3, [])])
      = ([1, 3, 2, 0], none) ∧
    ¬ DependsOn (buildGraph [((0 : Nat), [1]), (1, ([] : List Nat)), (2, [1]), (3, [])]) 0 2 ∧
    ¬ DependsOn (buildGraph [((0 : Nat), [1]), (1, ([] : List Nat)), (2, [1]), (3, [])]) 2 0 ∧
    (namesOf (buildGraph [((0 : Nat), [1]), (1, ([] : List Nat)), (2, [1]), (3, [])])).indexOf 0
      < (namesOf (buildGraph [((0 : Nat), [1]), (1, ([] : List Nat)), (2, [1]), (3, [])])).indexOf 2 ∧
    List.indexOf 2 [1, 3, 2, 0] < List.indexOf 0 ([1, 3, 2, 0] : List Nat) :=
  ⟨by decide, by decide, by decide, by decide, by decide, by decide⟩

/-- C5, amended.  Elements whose stored dependency set is empty form the
initial segment of the output, in exactly their original insertion order.
(For elements with dependencies, output position follows the permuted
working slice, which — as the counterexample shows — may deviate from
insertion order.) -/
theorem claim5_initial_free_stability (dg : DependencyGraph T) (out : List T)
    (hwf : Wf dg) (hres : Resolve dg = (out, none)) :
    out.take ((dg.edges.filter fun e => decide (e.deps.length = 0)).length)
      = (dg.edges.filter fun e => decide (e.deps.length = 0)).map depEdge.name := by
  obtain ⟨hv, hstop, hfull, hout⟩ := Resolve_success_inv dg out hwf hres
  obtain ⟨hlen, hperm, hcf, hfm, hpf, hpl, htk, hsc, hbc⟩ := coreLoop_spec dg none hwf hv
  obtain ⟨ho, hfc, htp⟩ := hsc hstop
  subst hout
  rw [ho, ← hpl]
  rw [← List.map_take]
  rw [List.take_take]
  have hmin : min (corePromoted dg).2 (coreLoop dg none).fcur = (corePromoted dg).2 := by
    rw [hfc]
    omega
  rw [hmin, htk]

theorem claim5_witness :
    ([0, 2, 4, 1, 3] : List Nat).take
        (((buildGraph [((0 : Nat), ([] : List Nat)), (1, [0]), (2, []), (3, [1, 0]), (4, [])]).edges.filter
          fun e => decide (e.deps.length = 0)).length)
      = ((buildGraph [((0 : Nat), ([] : List Nat)), (1, [0]), (2, []), (3, [1, 0]), (4, [])]).edges.filter
          fun e => decide (e.deps.length = 0)).map depEdge.name :=
  claim5_initial_free_stability
    (buildGraph [((0 : Nat), ([] : List Nat)), (1, [0]), (2, []), (3, [1, 0]), (4, [])])
    [0, 2, 4, 1, 3] (by decide) (by decide)

/-- C10.  `ResolveIter` swaps the stored slice in place, so after a
successful fully-consumed resolution the stored edge sequence is exactly
the output order just produced (a permutation of the records added, with
their dependency sets intact). -/
theorem claim10_in_place_permutation (dg : DependencyGraph T) (out : List T)
    (hwf : Wf dg) (hres : Resolve dg = (out, none)) :
    namesOf (graphAfterResolve dg) = out ∧
    (graphAfterResolve dg).edges.Perm dg.edges := by
  obtain ⟨hv, hstop, hfull, hout⟩ := Resolve_success_inv dg out hwf hres
  obtain ⟨hlen, hperm, hcf, hfm, hpf, hpl, htk, hsc, hbc⟩ := coreLoop_spec dg none hwf hv
  obtain ⟨ho, hfc, htp⟩ := hsc hstop
  have hafter : (graphAfterResolve dg).edges = (coreLoop dg none).edges := by
    unfold graphAfterResolve
    rw [resolveIterRun_valid dg none hv, hstop]
    rw [if_neg (by simp)]
    by_cases hff : (coreLoop dg none).fmax ≠ (coreLoop dg none).edges.length
    · rw [if_pos hff]
    · rw [if_neg hff]
  constructor
  · rw [hout, ho]
    unfold namesOf
    rw [hafter]
    have hfc2 : (coreLoop dg none).fcur = (coreLoop dg none).edges.length := by
      rw [hfc, hfull]
    rw [hfc2, List.take_length]
  · rw [hafter]
    exact hperm

theorem claim10_witness :
    namesOf (graphAfterResolve (buildGraph [((1 : Nat), [0]), (0, ([] : List Nat))])) = [0, 1] ∧
    (graphAfterResolve (buildGraph [((1 : Nat), [0]), (0, ([] : List Nat))])).edges.Perm
      (buildGraph [((1 : Nat), [0]), (0, ([] : List Nat))]).edges :=
  claim10_in_place_permutation (buildGraph [((1 : Nat), [0]), (0, ([] : List Nat))]) [0, 1]
    (by decide) (by decide)

/-! ### Cycles -/

/-- The graph contains a dependency cycle: a non-empty list of identities
in which each element's cyclic successor belongs to its dependency set
(a one-element list is a self-dependency). -/
def HasCycle (dg : DependencyGraph T) : Prop :=
  ∃ l : List T, l ≠ [] ∧ ∀ (k : Nat) (hk : k < l.length),
    l.get ⟨(k + 1) % l.length, Nat.mod_lt _ (Nat.lt_of_le_of_lt (Nat.zero_le k) hk)⟩
      ∈ depsOf dg (l.get ⟨k, hk⟩)

/-- A topologically sound duplicate-free list cannot contain a dependency
cycle: following the cycle gives an infinite strict descent of positions. -/
theorem no_cycle_in_topo (D : T → List T) (out : List T) (hnd : out.Nodup)
    (htopo : Topo D out) (l : List T) (hne : l ≠ [])
    (hmem : ∀ x ∈ l, x ∈ out)
    (hcyc : ∀ (k : Nat) (hk : k < l.length),
      l.get ⟨(k + 1) % l.length, Nat.mod_lt _ (Nat.lt_of_le_of_lt (Nat.zero_le k) hk)⟩
        ∈ D (l.get ⟨k, hk⟩)) : False := by
  have key : ∀ n x, x ∈ l → out.indexOf x ≠ n := by
    intro n
    induction n using Nat.strong_induction_on with
    | _ n ihn =>
      intro x hx hidx
      obtain ⟨⟨k, hk⟩, hxk⟩ := List.mem_iff_get.mp hx
      have hyD := hcyc k hk
      rw [hxk] at hyD
      have hyl : l.get ⟨(k + 1) % l.length,
          Nat.mod_lt _ (Nat.lt_of_le_of_lt (Nat.zero_le k) hk)⟩ ∈ l := List.get_mem l _ _
      have hxo : x ∈ out := hmem x hx
      have hio : out.indexOf x < out.length := List.indexOf_lt_length.mpr hxo
      have hgx : out[out.indexOf x] = x := List.getElem_indexOf hio
      have htake := htopo (out.indexOf x) hio _ (by rw [hgx]; exact hyD)
      have hylt := indexOf_lt_of_mem_take out (out.indexOf x) _ htake
      exact ihn (out.indexOf (l.get ⟨(k + 1) % l.length,
        Nat.mod_lt _ (Nat.lt_of_le_of_lt (Nat.zero_le k) hk)⟩)) (by omega) _ hyl rfl
  obtain ⟨x0, hx0⟩ := List.exists_mem_of_ne_nil l hne
  exact key (out.indexOf x0) x0 hx0 rfl

/-- C3, counterexample.  The claim quantifies over *any* graph containing
a cycle, but a graph containing both a self-dependency and an unknown
dependency fails with the unknown-dependency error, not the circular one:
validation runs first. -/
theorem claim3_counterexample :
    HasCycle (buildGraph [((0 : Nat), [0, 5])]) ∧
    Resolve (buildGraph [((0 : Nat), [0, 5])]) = ([], some (ResolveErr.unknownDependency 5)) ∧
    (Resolve (buildGraph [((0 : Nat), [0, 5])])).2 ≠ some ResolveErr.circularDependency := by
  refine ⟨⟨[0], by simp, ?_⟩, by decide, by decide⟩
  intro k hk
  have hk0 : k = 0 := Nat.lt_one_iff.mp (by simpa using hk)
  subst hk0
  exact (by decide : (0 : Nat) ∈ depsOf (buildGraph [((0 : Nat), [0, 5])]) 0)

/-- C3, amended.  Any reachable graph with no unknown dependencies
(validation passes) that contains a dependency cycle — including a
self-dependency — makes `Resolve()` fail with the circular-dependency
error and produce no materialized elements.  (When the graph also has an
unknown dependency, that error takes precedence, as the counterexample
shows.) -/
theorem claim3_cycle_detection (dg : DependencyGraph T) (hwf : Wf dg)
    (hv : validate dg = none) (hcyc : HasCycle dg) :
    Resolve dg = ([], some ResolveErr.circularDependency) := by
  by_cases hfull : (coreLoop dg none).fmax = (coreLoop dg none).edges.length
  · exfalso
    have hres := Resolve_success dg hwf hv hfull
    have hperm := Resolve_success_perm dg (coreLoop dg none).out hwf hres
    have hnd : (coreLoop dg none).out.Nodup := hperm.nodup_iff.mpr hwf.1
    obtain ⟨hlen, hperm2, hcf, hfm, hpf, hpl, htk, hsc, hbc⟩ := coreLoop_spec dg none hwf hv
    have hstop : (coreLoop dg none).stopped = false := hbc rfl
    obtain ⟨ho, hfc, htp⟩ := hsc hstop
    obtain ⟨l, hlne, hlc⟩ := hcyc
    refine no_cycle_in_topo (depsOf dg) (coreLoop dg none).out hnd htp l hlne ?_ hlc
    intro x hx
    obtain ⟨⟨j, hj⟩, hxj⟩ := List.mem_iff_get.mp hx
    have hlpos : 0 < l.length := Nat.lt_of_le_of_lt (Nat.zero_le j) hj
    have hk : (j + l.length - 1) % l.length < l.length := Nat.mod_lt _ hlpos
    have hsucc : ((j + l.length - 1) % l.length + 1) % l.length = j := by
      rw [Nat.mod_add_mod]
      have h1 : j + l.length - 1 + 1 = j + l.length := by omega
      rw [h1, Nat.add_mod_right]
      exact Nat.mod_eq_of_lt hj
    have hd := hlc ((j + l.length - 1) % l.length) hk
    have hgeq : l.get ⟨((j + l.length - 1) % l.length + 1) % l.length,
        Nat.mod_lt _ (Nat.lt_of_le_of_lt (Nat.zero_le _) hk)⟩ = l.get ⟨j, hj⟩ :=
      congrArg l.get (Fin.ext hsucc)
    rw [hgeq, hxj] at hd
    have hname := valid_deps_mem dg hv _ x hd
    exact hperm.mem_iff.mpr hname
  · exact Resolve_circular dg hwf hv hfull

theorem claim3_witness :
    Resolve (buildGraph [((0 : Nat), [0])]) = ([], some ResolveErr.circularDependency) := by
  apply claim3_cycle_detection (buildGraph [((0 : Nat), [0])]) (by decide) (by decide)
  refine ⟨[0], by simp, ?_⟩
  intro k hk
  have hk0 : k = 0 := Nat.lt_one_iff.mp (by simpa using hk)
  subst hk0
  exact (by decide : (0 : Nat) ∈ depsOf (buildGraph [((0 : Nat), [0])]) 0)

/-- C4.  A graph in which some stored dependency set mentions an identity
never added as a name makes both `ResolveIter` (under any consumer) and
`Resolve` fail with the unknown-dependency error carrying a genuinely
unknown dependency, with no element yielded before the error pair and the
stored slice untouched. -/
theorem claim4_unknown_dependency (dg : DependencyGraph T) (budget : Option Nat)
    (hbad : ∃ e ∈ dg.edges, ∃ d ∈ e.deps, d ∉ namesOf dg) :
    ∃ d, ((∃ e ∈ dg.edges, d ∈ e.deps) ∧ d ∉ namesOf dg) ∧
      resolveIterRun dg budget
        = ⟨[Yield.fail (ResolveErr.unknownDependency d)], false, dg⟩ ∧
      Resolve dg = ([], some (ResolveErr.unknownDependency d)) := by
  have hv : validate dg ≠ none := by
    intro hv
    rw [validate_eq_none_iff] at hv
    obtain ⟨e, he, d, hd, hnd⟩ := hbad
    exact hnd (hv e he d hd)
  cases hval : validate dg with
  | none => exact absurd hval hv
  | some d =>
    have hspec := validate_some_spec dg d hval
    exact ⟨d, ⟨hspec.1, hspec.2⟩, resolveIterRun_invalid dg budget d hval,
      Resolve_invalid dg d hval⟩

theorem claim4_witness :
    ∃ d, ((∃ e ∈ (buildGraph [((0 : Nat), [5])]).edges, d ∈ e.deps) ∧
        d ∉ namesOf (buildGraph [((0 : Nat), [5])])) ∧
      resolveIterRun (buildGraph [((0 : Nat), [5])]) none
        = ⟨[Yield.fail (ResolveErr.unknownDependency d)], false, buildGraph [((0 : Nat), [5])]⟩ ∧
      Resolve (buildGraph [((0 : Nat), [5])])
        = ([], some (ResolveErr.unknownDependency d)) :=
  claim4_unknown_dependency (buildGraph [((0 : Nat), [5])]) none (by decide)

/-- C6, counterexample.  Resolution does *not* restore the stored edge
sequence: resolving `Add(1,0); Add(0)` permanently swaps the two records,
so the slice after the pass differs from the slice before it. -/
theorem claim6_counterexample :
    (resolveIterRun (buildGraph [((1 : Nat), [0]), (0, ([] : List Nat))]) none).after.edges
      ≠ (buildGraph [((1 : Nat), [0]), (0, ([] : List Nat))]).edges := by
  decide

/-- C6, amended.  Resolution (under any consumer, on any reachable graph)
never adds or removes edge records and never mutates any record's
dependency set — the stored slice after the pass is a permutation of the
records, and the name-to-dependency-set mapping is unchanged — but the
in-place swaps may leave the stored sequence permanently permuted (see the
counterexample). -/
theorem claim6_frame (dg : DependencyGraph T) (budget : Option Nat) (hwf : Wf dg) :
    (resolveIterRun dg budget).after.edges.Perm dg.edges ∧
    ∀ x, depsOf (resolveIterRun dg budget).after x = depsOf dg x := by
  have hperm : (resolveIterRun dg budget).after.edges.Perm dg.edges := by
    cases hv : validate dg with
    | some d =>
      rw [resolveIterRun_invalid dg budget d hv]
    | none =>
      obtain ⟨hlen, hperm, hcf, hfm, hpf, hpl, htk, hsc, hbc⟩ := coreLoop_spec dg budget hwf hv
      rw [resolveIterRun_valid dg budget hv]
      by_cases hs : (coreLoop dg budget).stopped
      · rw [if_pos hs]
        exact hperm
      · rw [if_neg hs]
        by_cases hff : (coreLoop dg budget).fmax ≠ (coreLoop dg budget).edges.length
        · rw [if_pos hff]
          exact hperm
        · rw [if_neg hff]
          exact hperm
  refine ⟨hperm, ?_⟩
  intro x
  exact depsOf_eq_of_perm (resolveIterRun dg budget).after.edges dg.edges hperm hwf.1 x

theorem claim6_witness :
    (resolveIterRun (buildGraph [((1 : Nat), [0]), (0, ([] : List Nat))]) none).after.edges.Perm
      (buildGraph [((1 : Nat), [0]), (0, ([] : List Nat))]).edges ∧
    ∀ x, depsOf (resolveIterRun (buildGraph [((1 : Nat), [0]), (0, ([] : List Nat))]) none).after x
      = depsOf (buildGraph [((1 : Nat), [0]), (0, ([] : List Nat))]) x :=
  claim6_frame (buildGraph [((1 : Nat), [0]), (0, ([] : List Nat))]) none (by decide)

/-- C7.  Whenever a consumer stops requesting elements (any run whose
iterator reports a cancellation), no circular-dependency error is ever
yielded — even if the part of the graph not yet consumed contains a cycle —
because the final check only runs after the loop terminates naturally. -/
theorem claim7_cancellation_safety (dg : DependencyGraph T) (b : Nat)
    (hstop : (resolveIterRun dg (some b)).stopped = true) :
    Yield.fail ResolveErr.circularDependency ∉ (resolveIterRun dg (some b)).trace := by
  cases hv : validate dg with
  | some d =>
    rw [resolveIterRun_invalid dg (some b) d hv] at hstop
    simp at hstop
  | none =>
    rw [resolveIterRun_valid dg (some b) hv] at hstop ⊢
    by_cases hs : (coreLoop dg (some b)).stopped
    · rw [if_pos hs]
      intro hmem
      simp at hmem
    · rw [if_neg hs] at hstop
      by_cases hff : (coreLoop dg (some b)).fmax ≠ (coreLoop dg (some b)).edges.length
      · rw [if_pos hff] at hstop
        simp at hstop
      · rw [if_neg hff] at hstop
        simp at hstop

theorem claim7_witness :
    Yield.fail ResolveErr.circularDependency
      ∉ (resolveIterRun (buildGraph [((0 : Nat), ([] : List Nat)), (1, [1])]) (some 0)).trace :=
  claim7_cancellation_safety (buildGraph [((0 : Nat), ([] : List Nat)), (1, [1])]) 0 (by decide)

/-- C8.  Whenever `Resolve()` returns an error, it returns no elements at
all — never a partial prefix — even though the iterator may have yielded
elements before the error pair. -/
theorem claim8_no_partial_on_error (dg : DependencyGraph T) (e : ResolveErr T)
    (he : (Resolve dg).2 = some e) : (Resolve dg).1 = [] := by
  unfold Resolve at he ⊢
  exact collect_err_nil _ [] e he

theorem claim8_witness :
    (Resolve (buildGraph [((0 : Nat), ([] : List Nat)), (1, [0]), (2, [2])])).1 = [] :=
  claim8_no_partial_on_error (buildGraph [((0 : Nat), ([] : List Nat)), (1, [0]), (2, [2])])
    ResolveErr.circularDependency (by decide)

/-! ### Algebra of `Add` (for the idempotence/additivity claim) -/

theorem find?_map_update (l : List (depEdge T)) (y : T) (ly : List T) (x : T) :
    (l.map fun e => if e.name = y then (⟨e.name, insertDeps e.deps ly⟩ : depEdge T) else e).find?
        (fun e => decide (e.name = x))
      = (l.find? fun e => decide (e.name = x)).map
          fun e => if e.name = y then (⟨e.name, insertDeps e.deps ly⟩ : depEdge T) else e := by
  induction l with
  | nil => rfl
  | cons e t ih =>
    simp only [List.map_cons]
    by_cases hx : e.name = x
    · have h1 : (if e.name = y then (⟨e.name, insertDeps e.deps ly⟩ : depEdge T) else e).name
          = x := by
        by_cases hy : e.name = y
        · rw [if_pos hy]
          exact hx
        · rw [if_neg hy]
          exact hx
      rw [List.find?_cons_of_pos _ (by simp [h1]), List.find?_cons_of_pos _ (by simp [hx])]
      rfl
    · have h1 : (if e.name = y then (⟨e.name, insertDeps e.deps ly⟩ : depEdge T) else e).name
          ≠ x := by
        by_cases hy : e.name = y
        · rw [if_pos hy]
          exact hx
        · rw [if_neg hy]
          exact hx
      rw [List.find?_cons_of_neg _ (by simp [h1]), List.find?_cons_of_neg _ (by simp [hx])]
      exact ih

theorem find?_append_single (l : List (depEdge T)) (p : depEdge T → Bool) (a : depEdge T) :
    (l ++ [a]).find? p = match l.find? p with
      | some e => some e
      | none => if p a then some a else none := by
  induction l with
  | nil =>
    simp only [List.nil_append, List.find?_nil]
    cases hpa : p a
    · rw [List.find?_cons_of_neg _ (by simp [hpa])]
      simp [hpa]
    · rw [List.find?_cons_of_pos _ hpa]
      simp [hpa]
  | cons e t ih =>
    by_cases hpe : p e = true
    · rw [List.cons_append, List.find?_cons_of_pos _ hpe, List.find?_cons_of_pos _ hpe]
    · rw [List.cons_append, List.find?_cons_of_neg _ hpe, List.find?_cons_of_neg _ hpe]
      exact ih

/-- Effect of `Add` on the stored dependency set of any name. -/
theorem depsOf_Add (g : DependencyGraph T) (y : T) (ly : List T) (x : T) :
    depsOf (Add g y ly) x
      = if x = y then
          (if y ∈ namesOf g then insertDeps (depsOf g y) ly else insertDeps [] ly)
        else depsOf g x := by
  unfold Add
  by_cases hy : y ∈ namesOf g
  · rw [if_pos hy, if_pos hy]
    unfold depsOf lookupEdge
    show (((g.edges.map fun e =>
      if e.name = y then (⟨e.name, insertDeps e.deps ly⟩ : depEdge T) else e).find?
        (fun e => decide (e.name = x))).map depEdge.deps).getD [] = _
    rw [find?_map_update g.edges y ly x]
    by_cases hxy : x = y
    · subst hxy
      rw [if_pos rfl]
      cases hf : g.edges.find? fun e => decide (e.name = x) with
      | none =>
        exfalso
        rw [List.find?_eq_none] at hf
        obtain ⟨e, he, hname⟩ := List.mem_map.mp hy
        exact absurd (by simp [hname]) (hf e he)
      | some e =>
        have hex : e.name = x := by simpa using List.find?_some hf
        simp [hex]
    · rw [if_neg hxy]
      cases hf : g.edges.find? fun e => decide (e.name = x) with
      | none => rfl
      | some e =>
        have hex : e.name = x := by simpa using List.find?_some hf
        have hney : e.name ≠ y := fun h => hxy (hex ▸ h ▸ rfl)
        simp [hney]
  · rw [if_neg hy, if_neg hy]
    unfold depsOf lookupEdge
    show (((g.edges ++ [(⟨y, insertDeps [] ly⟩ : depEdge T)]).find?
        (fun e => decide (e.name = x))).map depEdge.deps).getD [] = _
    rw [find?_append_single]
    by_cases hxy : x = y
    · subst hxy
      rw [if_pos rfl]
      cases hf : g.edges.find? fun e => decide (e.name = x) with
      | none => simp
      | some e =>
        exfalso
        have hex : e.name = x := by simpa using List.find?_some hf
        exact hy (hex ▸ List.mem_map.mpr ⟨e, List.mem_of_find?_eq_some hf, rfl⟩)
    · rw [if_neg hxy]
      cases hf : g.edges.find? fun e => decide (e.name = x) with
      | none =>
        have hyx : (decide ((⟨y, insertDeps [] ly⟩ : depEdge T).name = x)) = false := by
          simp only [decide_eq_false_iff_not]
          exact fun h => hxy (id h.symm)
        simp [hyx]
      | some e =>
        rfl

theorem mem_namesOf_Add_self (g : DependencyGraph T) (n : T) (l : List T) :
    n ∈ namesOf (Add g n l) := by
  rw [namesOf_Add]
  by_cases h : n ∈ namesOf g
  · rw [if_pos h]
    exact h
  · rw [if_neg h]
    simp

theorem mem_namesOf_Add_mono (g : DependencyGraph T) (y : T) (ly : List T) (z : T)
    (h : z ∈ namesOf g) : z ∈ namesOf (Add g y ly) := by
  rw [namesOf_Add]
  by_cases hy : y ∈ namesOf g
  · rw [if_pos hy]
    exact h
  · rw [if_neg hy]
    exact List.mem_append_left _ h

theorem depsOf_Add_mono (g : DependencyGraph T) (y : T) (ly : List T) (z d : T)
    (h : d ∈ depsOf g z) : d ∈ depsOf (Add g y ly) z := by
  rw [depsOf_Add]
  by_cases hzy : z = y
  · subst hzy
    by_cases hy : z ∈ namesOf g
    · rw [if_pos rfl, if_pos hy, mem_insertDeps]
      exact Or.inl h
    · exfalso
      unfold depsOf lookupEdge at h
      cases hf : g.edges.find? fun e => decide (e.name = z) with
      | none =>
        rw [hf] at h
        simp at h
      | some e =>
        have hex : e.name = z := by simpa using List.find?_some hf
        exact hy (hex ▸ List.mem_map.mpr ⟨e, List.mem_of_find?_eq_some hf, rfl⟩)
  · rw [if_neg hzy]
    exact h

theorem mem_namesOf_foldAdd_mono (ops : List (T × List T)) (g : DependencyGraph T) (z : T)
    (h : z ∈ namesOf g) :
    z ∈ namesOf (ops.foldl (fun g op => Add g op.1 op.2) g) :=
  (mem_namesOf_foldAdd ops g z).mpr (Or.inl h)

theorem depsOf_foldAdd_mono : ∀ (ops : List (T × List T)) (g : DependencyGraph T) (z d : T),
    d ∈ depsOf g z → d ∈ depsOf (ops.foldl (fun g op => Add g op.1 op.2) g) z := by
  intro ops
  induction ops with
  | nil => exact fun g z d h => h
  | cons op t ih =>
    intro g z d h
    simp only [List.foldl_cons]
    exact ih _ z d (depsOf_Add_mono g op.1 op.2 z d h)

/-- Re-adding an already-present `(name, dep)` pair leaves the graph
bit-for-bit unchanged. -/
theorem Add_self_noop (g : DependencyGraph T) (x d : T) (hwf : Wf g)
    (hx : x ∈ namesOf g) (hd : d ∈ depsOf g x) : Add g x [d] = g := by
  unfold Add
  rw [if_pos hx]
  congr 1
  have hpt : ∀ e ∈ g.edges,
      (if e.name = x then (⟨e.name, insertDeps e.deps [d]⟩ : depEdge T) else e) = e := by
    intro e he
    by_cases hex : e.name = x
    · rw [if_pos hex]
      have hdeps : depsOf g x = e.deps := by
        rw [← hex]
        exact depsOf_eq_of_mem g hwf.1 e he
      have hde : d ∈ e.deps := hdeps ▸ hd
      show (⟨e.name, insertDeps e.deps [d]⟩ : depEdge T) = e
      have hins : insertDeps e.deps [d] = e.deps := by
        unfold insertDeps
        simp only [List.foldl_cons, List.foldl_nil]
        unfold insertDep
        rw [if_pos hde]
      rw [hins]
    · rw [if_neg hex]
  calc g.edges.map (fun e =>
        if e.name = x then (⟨e.name, insertDeps e.deps [d]⟩ : depEdge T) else e)
      = g.edges.map (fun e => e) := List.map_congr_left hpt
    _ = g.edges := List.map_id g.edges

theorem Wf_empty : Wf (NewDependencyGraph T) :=
  ⟨List.nodup_nil, fun e he => by simp [NewDependencyGraph] at he⟩

/-- Duplicate `(name, dep)` pairs are absorbed: re-adding an existing pair
anywhere later in the construction history leaves the built graph
unchanged. -/
theorem buildGraph_dup_pair (P M S : List (T × List T)) (x d : T) :
    buildGraph (P ++ (x, [d]) :: M ++ (x, [d]) :: S)
      = buildGraph (P ++ (x, [d]) :: M ++ S) := by
  unfold buildGraph
  simp only [List.foldl_append, List.foldl_cons]
  congr 1
  apply Add_self_noop
  · exact Wf_foldAdd M _ (Wf_Add _ x [d] (Wf_foldAdd P _ Wf_empty))
  · exact mem_namesOf_foldAdd_mono M _ x (mem_namesOf_Add_self _ x [d])
  · apply depsOf_foldAdd_mono M _ x d
    rw [depsOf_Add, if_pos rfl]
    by_cases hx : x ∈ namesOf (P.foldl (fun g op => Add g op.1 op.2) (NewDependencyGraph T))
    · rw [if_pos hx, mem_insertDeps]
      exact Or.inr (by simp)
    · rw [if_neg hx, mem_insertDeps]
      exact Or.inr (by simp)

/-! ### Graphs equal up to dependency-set iteration order -/

/-- Two records are equivalent when they name the same element and hold
the same dependency set (possibly enumerated in a different order: Go map
iteration order is unobservable). -/
def edgeEquiv (e1 e2 : depEdge T) : Prop :=
  e1.name = e2.name ∧ e1.deps.Perm e2.deps

/-- Graphs with identical record sequences up to dependency-set
enumeration order. -/
def graphEquiv (g1 g2 : DependencyGraph T) : Prop :=
  List.Forall₂ edgeEquiv g1.edges g2.edges

theorem edgeEquiv_refl (e : depEdge T) : edgeEquiv e e :=
  ⟨rfl, List.Perm.refl _⟩

theorem graphEquiv_refl (g : DependencyGraph T) : graphEquiv g g :=
  List.forall₂_same.mpr fun e _ => edgeEquiv_refl e

theorem forall₂_edgeEquiv_trans : ∀ (l1 l2 l3 : List (depEdge T)),
    List.Forall₂ edgeEquiv l1 l2 → List.Forall₂ edgeEquiv l2 l3 →
    List.Forall₂ edgeEquiv l1 l3 := by
  intro l1 l2 l3 h12
  induction h12 generalizing l3 with
  | nil =>
    intro h23
    cases h23
    exact List.Forall₂.nil
  | cons hab hl ih =>
    intro h23
    cases h23 with
    | cons hbc hl2 =>
      exact List.Forall₂.cons ⟨hab.1.trans hbc.1, hab.2.trans hbc.2⟩ (ih _ hl2)

theorem graphEquiv_trans (g1 g2 g3 : DependencyGraph T)
    (h12 : graphEquiv g1 g2) (h23 : graphEquiv g2 g3) : graphEquiv g1 g3 :=
  forall₂_edgeEquiv_trans g1.edges g2.edges g3.edges h12 h23

theorem forall₂_getElem? (l1 l2 : List (depEdge T)) (h : List.Forall₂ edgeEquiv l1 l2) :
    ∀ i : Nat, (l1[i]? = none ∧ l2[i]? = none) ∨
      ∃ a b, l1[i]? = some a ∧ l2[i]? = some b ∧ edgeEquiv a b := by
  induction h with
  | nil =>
    intro i
    left
    simp
  | cons hab hl ih =>
    intro i
    cases i with
    | zero =>
      right
      exact ⟨_, _, by simp, by simp, hab⟩
    | succ n =>
      simp only [List.getElem?_cons_succ]
      exact ih n

theorem forall₂_set (l1 l2 : List (depEdge T)) (h : List.Forall₂ edgeEquiv l1 l2) :
    ∀ (i : Nat) (a b : depEdge T), edgeEquiv a b →
      List.Forall₂ edgeEquiv (l1.set i a) (l2.set i b) := by
  induction h with
  | nil =>
    intro i a b _
    simp only [List.set_nil]
    exact List.Forall₂.nil
  | cons hxy hl ih =>
    intro i a b hab
    cases i with
    | zero =>
      simp only [List.set_cons_zero]
      exact List.Forall₂.cons hab hl
    | succ n =>
      simp only [List.set_cons_succ]
      exact List.Forall₂.cons hxy (ih n a b hab)

theorem listSwap_none_left (l : List α) (i j : Nat) (h : l[i]? = none) :
    listSwap l i j = l := by
  unfold listSwap
  rw [h]

theorem listSwap_none_right (l : List α) (i j : Nat) (h : l[j]? = none) :
    listSwap l i j = l := by
  unfold listSwap
  rw [h]
  cases hi : l[i]? <;> rfl

theorem listSwap_forall₂ (l1 l2 : List (depEdge T)) (h : List.Forall₂ edgeEquiv l1 l2)
    (i j : Nat) : List.Forall₂ edgeEquiv (listSwap l1 i j) (listSwap l2 i j) := by
  rcases forall₂_getElem? l1 l2 h i with ⟨hi1, hi2⟩ | ⟨a1, a2, hi1, hi2, hia⟩
  · rw [listSwap_none_left l1 i j hi1, listSwap_none_left l2 i j hi2]
    exact h
  · rcases forall₂_getElem? l1 l2 h j with ⟨hj1, hj2⟩ | ⟨b1, b2, hj1, hj2, hjb⟩
    · rw [listSwap_none_right l1 i j hj1, listSwap_none_right l2 i j hj2]
      exact h
    · rw [listSwap_eq l1 i j a1 b1 hi1 hj1, listSwap_eq l2 i j a2 b2 hi2 hj2]
      exact forall₂_set _ _ (forall₂_set _ _ h i b1 b2 hjb) j a1 a2 hia

theorem map_name_eq_of_forall₂ (l1 l2 : List (depEdge T))
    (h : List.Forall₂ edgeEquiv l1 l2) :
    l1.map depEdge.name = l2.map depEdge.name := by
  induction h with
  | nil => rfl
  | cons hab hl ih =>
    simp only [List.map_cons]
    rw [hab.1, ih]

theorem namesOf_eq_of_equiv (g1 g2 : DependencyGraph T) (h : graphEquiv g1 g2) :
    namesOf g1 = namesOf g2 :=
  map_name_eq_of_forall₂ g1.edges g2.edges h

theorem forall₂_mem_left (l1 l2 : List (depEdge T)) (h : List.Forall₂ edgeEquiv l1 l2) :
    ∀ e1 ∈ l1, ∃ e2 ∈ l2, edgeEquiv e1 e2 := by
  induction h with
  | nil =>
    intro e1 he1
    simp at he1
  | cons hab hl ih =>
    intro e1 he1
    rcases List.mem_cons.mp he1 with rfl | he1
    · exact ⟨_, List.mem_cons_self .., hab⟩
    · obtain ⟨e2, he2, heq⟩ := ih e1 he1
      exact ⟨e2, List.mem_cons_of_mem _ he2, heq⟩

theorem forall₂_mem_right (l1 l2 : List (depEdge T)) (h : List.Forall₂ edgeEquiv l1 l2) :
    ∀ e2 ∈ l2, ∃ e1 ∈ l1, edgeEquiv e1 e2 := by
  induction h with
  | nil =>
    intro e2 he2
    simp at he2
  | cons hab hl ih =>
    intro e2 he2
    rcases List.mem_cons.mp he2 with rfl | he2
    · exact ⟨_, List.mem_cons_self .., hab⟩
    · obtain ⟨e1, he1, heq⟩ := ih e2 he2
      exact ⟨e1, List.mem_cons_of_mem _ he1, heq⟩

theorem validate_none_equiv (g1 g2 : DependencyGraph T) (h : graphEquiv g1 g2) :
    (validate g1 = none ↔ validate g2 = none) := by
  rw [validate_eq_none_iff, validate_eq_none_iff]
  have hnames := namesOf_eq_of_equiv g1 g2 h
  constructor
  · intro hall e2 he2 d hd
    obtain ⟨e1, he1, heq⟩ := forall₂_mem_right g1.edges g2.edges h e2 he2
    rw [← hnames]
    exact hall e1 he1 d (heq.2.mem_iff.mpr hd)
  · intro hall e1 he1 d hd
    obtain ⟨e2, he2, heq⟩ := forall₂_mem_left g1.edges g2.edges h e1 he1
    rw [hnames]
    exact hall e2 he2 d (heq.2.mem_iff.mp hd)

theorem count_insertDep (s : List T) (a c : T) :
    (insertDep s a).count c = s.count c + (if c = a ∧ a ∉ s then 1 else 0) := by
  unfold insertDep
  by_cases ha : a ∈ s
  · rw [if_pos ha]
    simp [ha]
  · rw [if_neg ha]
    rw [List.count_append]
    by_cases hca : c = a
    · subst hca
      simp [ha]
    · have h0 : List.count c [a] = 0 := by
        rw [List.count_eq_zero]
        simp [hca]
      simp [h0, hca]

theorem count_insertDeps : ∀ (l s : List T) (c : T),
    (insertDeps s l).count c = s.count c + (if c ∈ l ∧ c ∉ s then 1 else 0) := by
  intro l
  induction l with
  | nil =>
    intro s c
    simp [insertDeps]
  | cons a t ih =>
    intro s c
    show (insertDeps (insertDep s a) t).count c = _
    rw [ih (insertDep s a) c, count_insertDep]
    simp only [mem_insertDep, List.mem_cons]
    by_cases h1 : c = a <;> by_cases h2 : c ∈ s <;> by_cases h3 : c ∈ t <;>
      simp [h1, h2, h3]

theorem insertDeps_perm_right (s l1 l2 : List T) (hmem : ∀ d, d ∈ l1 ↔ d ∈ l2) :
    (insertDeps s l1).Perm (insertDeps s l2) := by
  rw [List.perm_iff_count]
  intro c
  rw [count_insertDeps, count_insertDeps]
  simp [hmem c]

theorem insertDep_perm_left (s1 s2 : List T) (h : s1.Perm s2) (d : T) :
    (insertDep s1 d).Perm (insertDep s2 d) := by
  unfold insertDep
  by_cases hd : d ∈ s1
  · rw [if_pos hd, if_pos (h.mem_iff.mp hd)]
    exact h
  · rw [if_neg hd, if_neg (fun hc => hd (h.mem_iff.mpr hc))]
    exact h.append_right [d]

theorem insertDeps_perm_left : ∀ (l : List T) (s1 s2 : List T), s1.Perm s2 →
    (insertDeps s1 l).Perm (insertDeps s2 l) := by
  intro l
  induction l with
  | nil => exact fun s1 s2 h => h
  | cons a t ih =>
    intro s1 s2 h
    show (insertDeps (insertDep s1 a) t).Perm (insertDeps (insertDep s2 a) t)
    exact ih _ _ (insertDep_perm_left s1 s2 h a)

theorem map_update_names (l : List (depEdge T)) (x : T) (lx : List T) :
    (l.map fun e =>
        if e.name = x then (⟨e.name, insertDeps e.deps lx⟩ : depEdge T) else e).map
      depEdge.name = l.map depEdge.name := by
  rw [List.map_map]
  apply List.map_congr_left
  intro e _
  by_cases hx : e.name = x <;> simp [hx]

theorem map_update_of_not_mem (l : List (depEdge T)) (x : T) (lx : List T)
    (hx : x ∉ l.map depEdge.name) :
    (l.map fun e =>
        if e.name = x then (⟨e.name, insertDeps e.deps lx⟩ : depEdge T) else e) = l := by
  have hpt : ∀ e ∈ l,
      (if e.name = x then (⟨e.name, insertDeps e.deps lx⟩ : depEdge T) else e) = e := by
    intro e he
    rw [if_neg]
    intro hc
    apply hx
    rw [← hc]
    exact List.mem_map.mpr ⟨e, he, rfl⟩
  calc (l.map fun e => if e.name = x then (⟨e.name, insertDeps e.deps lx⟩ : depEdge T) else e)
      = l.map (fun e => e) := List.map_congr_left hpt
    _ = l := List.map_id l

/-- `Add` twice on the same name concatenates the dependency lists. -/
theorem Add_Add_same (g : DependencyGraph T) (x : T) (l1 l2 : List T) :
    Add (Add g x l1) x l2 = Add g x (l1 ++ l2) := by
  have hins : ∀ s : List T, insertDeps (insertDeps s l1) l2 = insertDeps s (l1 ++ l2) :=
    fun s => (List.foldl_append ..).symm
  by_cases hx : x ∈ namesOf g
  · have e1 : Add g x l1 = ⟨g.edges.map fun e =>
        if e.name = x then (⟨e.name, insertDeps e.deps l1⟩ : depEdge T) else e⟩ := by
      unfold Add
      rw [if_pos hx]
    have e3 : Add g x (l1 ++ l2) = ⟨g.edges.map fun e =>
        if e.name = x then (⟨e.name, insertDeps e.deps (l1 ++ l2)⟩ : depEdge T) else e⟩ := by
      unfold Add
      rw [if_pos hx]
    rw [e1, e3]
    have hx2 : x ∈ namesOf (⟨g.edges.map fun e =>
        if e.name = x then (⟨e.name, insertDeps e.deps l1⟩ : depEdge T) else e⟩ :
          DependencyGraph T) := by
      show x ∈ (g.edges.map fun e =>
        if e.name = x then (⟨e.name, insertDeps e.deps l1⟩ : depEdge T) else e).map depEdge.name
      rw [map_update_names]
      exact hx
    unfold Add
    rw [if_pos hx2]
    congr 1
    show ((g.edges.map fun e =>
        if e.name = x then (⟨e.name, insertDeps e.deps l1⟩ : depEdge T) else e).map fun e =>
        if e.name = x then (⟨e.name, insertDeps e.deps l2⟩ : depEdge T) else e) = _
    rw [List.map_map]
    apply List.map_congr_left
    intro e _
    by_cases hex : e.name = x
    · simp [hex, hins]
    · simp [hex]
  · have e1 : Add g x l1 = ⟨g.edges ++ [⟨x, insertDeps [] l1⟩]⟩ := by
      unfold Add
      rw [if_neg hx]
    have e3 : Add g x (l1 ++ l2) = ⟨g.edges ++ [⟨x, insertDeps [] (l1 ++ l2)⟩]⟩ := by
      unfold Add
      rw [if_neg hx]
    rw [e1, e3]
    have hx2 : x ∈ namesOf (⟨g.edges ++ [⟨x, insertDeps [] l1⟩]⟩ : DependencyGraph T) := by
      show x ∈ (g.edges ++ [(⟨x, insertDeps [] l1⟩ : depEdge T)]).map depEdge.name
      simp
    unfold Add
    rw [if_pos hx2]
    congr 1
    show ((g.edges ++ [(⟨x, insertDeps [] l1⟩ : depEdge T)]).map fun e =>
        if e.name = x then (⟨e.name, insertDeps e.deps l2⟩ : depEdge T) else e) = _
    rw [List.map_append, map_update_of_not_mem g.edges x l2 hx]
    simp [hins]

theorem forall₂_edgeEquiv_append (l1 l2 l3 l4 : List (depEdge T))
    (h12 : List.Forall₂ edgeEquiv l1 l2) (h34 : List.Forall₂ edgeEquiv l3 l4) :
    List.Forall₂ edgeEquiv (l1 ++ l3) (l2 ++ l4) := by
  induction h12 with
  | nil => exact h34
  | cons hab hl ih => exact List.Forall₂.cons hab ih

theorem forall₂_edgeEquiv_map (l1 l2 : List (depEdge T)) (h : List.Forall₂ edgeEquiv l1 l2)
    (f1 f2 : depEdge T → depEdge T)
    (hf : ∀ e1 e2, edgeEquiv e1 e2 → edgeEquiv (f1 e1) (f2 e2)) :
    List.Forall₂ edgeEquiv (l1.map f1) (l2.map f2) := by
  induction h with
  | nil => exact List.Forall₂.nil
  | cons hab hl ih => exact List.Forall₂.cons (hf _ _ hab) ih

/-- `Add` respects graph equivalence. -/
theorem Add_equiv (g1 g2 : DependencyGraph T) (h : graphEquiv g1 g2) (n : T) (l : List T) :
    graphEquiv (Add g1 n l) (Add g2 n l) := by
  have hnames := namesOf_eq_of_equiv g1 g2 h
  unfold Add
  by_cases hn : n ∈ namesOf g1
  · rw [if_pos hn, if_pos (hnames ▸ hn)]
    apply forall₂_edgeEquiv_map g1.edges g2.edges h
    intro e1 e2 he
    by_cases h1 : e1.name = n
    · rw [if_pos h1, if_pos (he.1.symm.trans h1)]
      exact ⟨he.1, insertDeps_perm_left l e1.deps e2.deps he.2⟩
    · rw [if_neg h1, if_neg (fun hc => h1 (he.1.trans hc))]
      exact he
  · rw [if_neg hn, if_neg (hnames ▸ hn)]
    exact forall₂_edgeEquiv_append _ _ _ _ h
      (List.Forall₂.cons (edgeEquiv_refl _) List.Forall₂.nil)

theorem graphEquiv_foldAdd : ∀ (ops : List (T × List T)) (g1 g2 : DependencyGraph T),
    graphEquiv g1 g2 →
    graphEquiv (ops.foldl (fun g op => Add g op.1 op.2) g1)
      (ops.foldl (fun g op => Add g op.1 op.2) g2) := by
  intro ops
  induction ops with
  | nil => exact fun g1 g2 h => h
  | cons op t ih =>
    intro g1 g2 h
    simp only [List.foldl_cons]
    exact ih _ _ (Add_equiv g1 g2 h op.1 op.2)

/-- `Add` with dependency lists holding the same set of elements produces
equivalent graphs (the dependency sets end up as permutations). -/
theorem Add_mem_deps_equiv (g : DependencyGraph T) (y : T) (l1 l2 : List T)
    (hmem : ∀ d, d ∈ l1 ↔ d ∈ l2) :
    graphEquiv (Add g y l1) (Add g y l2) := by
  unfold Add
  by_cases hy : y ∈ namesOf g
  · rw [if_pos hy, if_pos hy]
    apply forall₂_edgeEquiv_map g.edges g.edges (graphEquiv_refl g)
    intro e1 e2 he
    by_cases h1 : e1.name = y
    · rw [if_pos h1, if_pos (he.1.symm.trans h1)]
      exact ⟨he.1, (insertDeps_perm_left l1 e1.deps e2.deps he.2).trans
        (insertDeps_perm_right e2.deps l1 l2 hmem)⟩
    · rw [if_neg h1, if_neg (fun hc => h1 (he.1.trans hc))]
      exact he
  · rw [if_neg hy, if_neg hy]
    apply forall₂_edgeEquiv_append _ _ _ _ (graphEquiv_refl g)
    exact List.Forall₂.cons ⟨rfl, insertDeps_perm_right [] l1 l2 hmem⟩ List.Forall₂.nil

theorem Add_comm_of_ne_mem (g : DependencyGraph T) (y : T) (ly : List T) (x : T) (lx : List T)
    (hyx : y ≠ x) (hx : x ∈ namesOf g) (hy : y ∈ namesOf g) :
    Add (Add g y ly) x lx = Add (Add g x lx) y ly := by
  have e1 : Add g y ly = ⟨g.edges.map fun e =>
      if e.name = y then (⟨e.name, insertDeps e.deps ly⟩ : depEdge T) else e⟩ := by
    unfold Add
    rw [if_pos hy]
  have e2 : Add g x lx = ⟨g.edges.map fun e =>
      if e.name = x then (⟨e.name, insertDeps e.deps lx⟩ : depEdge T) else e⟩ := by
    unfold Add
    rw [if_pos hx]
  have hx2 : x ∈ namesOf (⟨g.edges.map fun e =>
      if e.name = y then (⟨e.name, insertDeps e.deps ly⟩ : depEdge T) else e⟩ :
        DependencyGraph T) := by
    show x ∈ (g.edges.map fun e =>
      if e.name = y then (⟨e.name, insertDeps e.deps ly⟩ : depEdge T) else e).map depEdge.name
    rw [map_update_names]
    exact hx
  have hy2 : y ∈ namesOf (⟨g.edges.map fun e =>
      if e.name = x then (⟨e.name, insertDeps e.deps lx⟩ : depEdge T) else e⟩ :
        DependencyGraph T) := by
    show y ∈ (g.edges.map fun e =>
      if e.name = x then (⟨e.name, insertDeps e.deps lx⟩ : depEdge T) else e).map depEdge.name
    rw [map_update_names]
    exact hy
  rw [e1, e2]
  unfold Add
  rw [if_pos hx2, if_pos hy2]
  congr 1
  rw [List.map_map, List.map_map]
  apply List.map_congr_left
  intro e _
  by_cases h1 : e.name = y <;> by_cases h2 : e.name = x
  · exact absurd (h1 ▸ h2) hyx
  · simp [h1, hyx]
  · simp [h2, Ne.symm hyx]
  · simp [h1, h2]

theorem Add_comm_of_ne_not_mem (g : DependencyGraph T) (y : T) (ly : List T) (x : T)
    (lx : List T) (hyx : y ≠ x) (hx : x ∈ namesOf g) (hy : y ∉ namesOf g) :
    Add (Add g y ly) x lx = Add (Add g x lx) y ly := by
  have e1 : Add g y ly = ⟨g.edges ++ [⟨y, insertDeps [] ly⟩]⟩ := by
    unfold Add
    rw [if_neg hy]
  have e2 : Add g x lx = ⟨g.edges.map fun e =>
      if e.name = x then (⟨e.name, insertDeps e.deps lx⟩ : depEdge T) else e⟩ := by
    unfold Add
    rw [if_pos hx]
  have hx2 : x ∈ namesOf (⟨g.edges ++ [⟨y, insertDeps [] ly⟩]⟩ : DependencyGraph T) := by
    show x ∈ (g.edges ++ [(⟨y, insertDeps [] ly⟩ : depEdge T)]).map depEdge.name
    rw [List.map_append]
    exact List.mem_append_left _ hx
  have hy2 : y ∉ namesOf (⟨g.edges.map fun e =>
      if e.name = x then (⟨e.name, insertDeps e.deps lx⟩ : depEdge T) else e⟩ :
        DependencyGraph T) := by
    show y ∉ (g.edges.map fun e =>
      if e.name = x then (⟨e.name, insertDeps e.deps lx⟩ : depEdge T) else e).map depEdge.name
    rw [map_update_names]
    exact hy
  rw [e1, e2]
  unfold Add
  rw [if_pos hx2, if_neg hy2]
  congr 1
  rw [List.map_append]
  congr 1
  simp [hyx]

/-- Two `Add` calls commute up to graph equivalence when the later-added
name is already registered. -/
theorem Add_swap_equiv (g : DependencyGraph T) (y : T) (ly : List T) (x b : T)
    (hx : x ∈ namesOf g) :
    graphEquiv (Add (Add g y ly) x [b]) (Add (Add g x [b]) y ly) := by
  by_cases hyx : y = x
  · subst hyx
    rw [Add_Add_same, Add_Add_same]
    apply Add_mem_deps_equiv
    intro d
    simp only [List.mem_append]
    tauto
  · by_cases hy : y ∈ namesOf g
    · rw [Add_comm_of_ne_mem g y ly x [b] hyx hx hy]
      exact graphEquiv_refl _
    · rw [Add_comm_of_ne_not_mem g y ly x [b] hyx hx hy]
      exact graphEquiv_refl _

/-- A later `Add x [b]` call can be pushed back to the point where `x` was
first registered, up to dependency-set enumeration order. -/
theorem add_late_equiv : ∀ (M : List (T × List T)) (g : DependencyGraph T) (x b : T),
    x ∈ namesOf g →
    graphEquiv (Add (M.foldl (fun g op => Add g op.1 op.2) g) x [b])
      (M.foldl (fun g op => Add g op.1 op.2) (Add g x [b])) := by
  intro M
  induction M with
  | nil => exact fun g x b _ => graphEquiv_refl _
  | cons op t ih =>
    intro g x b hx
    simp only [List.foldl_cons]
    apply graphEquiv_trans _ _ _
      (ih (Add g op.1 op.2) x b (mem_namesOf_Add_mono g op.1 op.2 x hx))
    apply graphEquiv_foldAdd t
    exact Add_swap_equiv g op.1 op.2 x b hx

/-- Splitting `Add(x, [a, b])` into `Add(x, [a])` now and `Add(x, [b])`
later yields an equivalent graph. -/
theorem buildGraph_split_equiv (P M S : List (T × List T)) (x a b : T) :
    graphEquiv (buildGraph (P ++ (x, [a]) :: M ++ (x, [b]) :: S))
      (buildGraph (P ++ (x, [a, b]) :: M ++ S)) := by
  unfold buildGraph
  simp only [List.foldl_append, List.foldl_cons]
  apply graphEquiv_foldAdd S
  have hx : x ∈ namesOf
      (Add (P.foldl (fun g op => Add g op.1 op.2) (NewDependencyGraph T)) x [a]) :=
    mem_namesOf_Add_self _ x [a]
  have h1 := add_late_equiv M
    (Add (P.foldl (fun g op => Add g op.1 op.2) (NewDependencyGraph T)) x [a]) x b hx
  rw [Add_Add_same] at h1
  exact h1

theorem initRefcounts_congr : ∀ (l1 l2 : List (depEdge T)), List.Forall₂ edgeEquiv l1 l2 →
    ∀ rc : T → Int,
      l1.foldl (fun rc e => fun y => if y = e.name then (e.deps.length : Int) else rc y) rc
        = l2.foldl (fun rc e => fun y => if y = e.name then (e.deps.length : Int) else rc y) rc := by
  intro l1 l2 h
  induction h with
  | nil => exact fun rc => rfl
  | @cons e1 e2 t1 t2 hab hl ih =>
    intro rc
    simp only [List.foldl_cons]
    have hstep : (fun y => if y = e1.name then (e1.deps.length : Int) else rc y)
        = (fun y => if y = e2.name then (e2.deps.length : Int) else rc y) := by
      funext y
      rw [hab.1, hab.2.length_eq]
    rw [hstep]
    exact ih _

theorem initRefcounts_eq_of_forall₂ (l1 l2 : List (depEdge T))
    (h : List.Forall₂ edgeEquiv l1 l2) : initRefcounts l1 = initRefcounts l2 :=
  initRefcounts_congr l1 l2 h _

theorem promote_congr : ∀ (fuel : Nat) (l1 l2 : List (depEdge T)) (fmax i : Nat),
    List.Forall₂ edgeEquiv l1 l2 →
    List.Forall₂ edgeEquiv (promote l1 fmax i fuel).1 (promote l2 fmax i fuel).1 ∧
    (promote l1 fmax i fuel).2 = (promote l2 fmax i fuel).2 := by
  intro fuel
  induction fuel with
  | zero =>
    intro l1 l2 fmax i h
    rw [promote_zero, promote_zero]
    exact ⟨h, rfl⟩
  | succ fuel ih =>
    intro l1 l2 fmax i h
    rcases forall₂_getElem? l1 l2 h i with ⟨h1, h2⟩ | ⟨a, b, h1, h2, hab⟩
    · rw [promote_succ_none l1 fmax i fuel h1, promote_succ_none l2 fmax i fuel h2]
      exact ⟨h, rfl⟩
    · rw [promote_succ_some l1 fmax i fuel a h1, promote_succ_some l2 fmax i fuel b h2]
      by_cases hz : a.deps.length = 0
      · rw [if_pos hz, if_pos (by rw [← hab.2.length_eq]; exact hz)]
        exact ih _ _ _ _ (listSwap_forall₂ l1 l2 h fmax i)
      · rw [if_neg hz, if_neg (by rw [← hab.2.length_eq]; exact hz)]
        exact ih _ _ _ _ h

theorem scan_congr : ∀ (fuel : Nat) (cur : T) (l1 l2 : List (depEdge T)) (rc : T → Int)
    (fmax i : Nat), List.Forall₂ edgeEquiv l1 l2 →
    List.Forall₂ edgeEquiv (scan cur l1 rc fmax i fuel).1 (scan cur l2 rc fmax i fuel).1 ∧
    (scan cur l1 rc fmax i fuel).2.1 = (scan cur l2 rc fmax i fuel).2.1 ∧
    (scan cur l1 rc fmax i fuel).2.2 = (scan cur l2 rc fmax i fuel).2.2 := by
  intro fuel
  induction fuel with
  | zero =>
    intro cur l1 l2 rc fmax i h
    rw [scan_zero, scan_zero]
    exact ⟨h, rfl, rfl⟩
  | succ fuel ih =>
    intro cur l1 l2 rc fmax i h
    rcases forall₂_getElem? l1 l2 h i with ⟨h1, h2⟩ | ⟨a, b, h1, h2, hab⟩
    · rw [scan_succ_none cur l1 rc fmax i fuel h1, scan_succ_none cur l2 rc fmax i fuel h2]
      exact ⟨h, rfl, rfl⟩
    · rw [scan_succ_some cur l1 rc fmax i fuel a h1, scan_succ_some cur l2 rc fmax i fuel b h2]
      rw [← hab.1]
      by_cases hdep : cur ∈ a.deps
      · rw [if_pos hdep, if_pos (hab.2.mem_iff.mp hdep)]
        by_cases hz : rcDec rc a.name a.name = 0
        · rw [if_pos hz, if_pos hz]
          exact ih _ _ _ _ _ _ (listSwap_forall₂ l1 l2 h fmax i)
        · rw [if_neg hz, if_neg hz]
          exact ih _ _ _ _ _ _ h
      · rw [if_neg hdep, if_neg (fun hc => hdep (hab.2.mem_iff.mpr hc))]
        exact ih _ _ _ _ _ _ h

theorem mainLoop_succ_nf (edges : List (depEdge T)) (rc : T → Int) (fmax fcur : Nat)
    (budget : Option Nat) (acc : List T) (fuel : Nat) (h : fcur < fmax)
    (he : edges[fcur]? = none) :
    mainLoop edges rc fmax fcur budget acc (fuel + 1) = ⟨acc, false, edges, rc, fmax, fcur⟩ := by
  rw [mainLoop_succ, if_pos h, he]

theorem mainLoop_congr : ∀ (fuel : Nat) (l1 l2 : List (depEdge T)) (rc : T → Int)
    (fmax fcur : Nat) (budget : Option Nat) (acc : List T),
    List.Forall₂ edgeEquiv l1 l2 →
    (mainLoop l1 rc fmax fcur budget acc fuel).out
        = (mainLoop l2 rc fmax fcur budget acc fuel).out ∧
    (mainLoop l1 rc fmax fcur budget acc fuel).stopped
        = (mainLoop l2 rc fmax fcur budget acc fuel).stopped ∧
    (mainLoop l1 rc fmax fcur budget acc fuel).fmax
        = (mainLoop l2 rc fmax fcur budget acc fuel).fmax ∧
    List.Forall₂ edgeEquiv (mainLoop l1 rc fmax fcur budget acc fuel).edges
      (mainLoop l2 rc fmax fcur budget acc fuel).edges := by
  intro fuel
  induction fuel with
  | zero =>
    intro l1 l2 rc fmax fcur budget acc h
    rw [mainLoop_zero, mainLoop_zero]
    exact ⟨rfl, rfl, rfl, h⟩
  | succ fuel ih =>
    intro l1 l2 rc fmax fcur budget acc h
    by_cases hlt : fcur < fmax
    · rcases forall₂_getElem? l1 l2 h fcur with ⟨h1, h2⟩ | ⟨a, b, h1, h2, hab⟩
      · rw [mainLoop_succ_nf l1 rc fmax fcur budget acc fuel hlt h1,
          mainLoop_succ_nf l2 rc fmax fcur budget acc fuel hlt h2]
        exact ⟨rfl, rfl, rfl, h⟩
      · by_cases hb : budget = some 0
        · subst hb
          rw [mainLoop_succ_stop l1 rc fmax fcur acc fuel a hlt h1,
            mainLoop_succ_stop l2 rc fmax fcur acc fuel b hlt h2]
          exact ⟨by rw [hab.1], rfl, rfl, h⟩
        · rw [mainLoop_succ_cont l1 rc fmax fcur budget acc fuel a hlt h1 hb,
            mainLoop_succ_cont l2 rc fmax fcur budget acc fuel b hlt h2 hb]
          rw [← hab.1]
          rw [← List.Forall₂.length_eq h]
          obtain ⟨hE, hR, hF⟩ := scan_congr l1.length a.name l1 l2 rc fmax (fcur + 1) h
          rw [← hR, ← hF]
          exact ih _ _ _ _ _ _ _ hE
    · rw [mainLoop_succ_done l1 rc fmax fcur budget acc fuel hlt,
        mainLoop_succ_done l2 rc fmax fcur budget acc fuel hlt]
      exact ⟨rfl, rfl, rfl, h⟩

theorem coreLoop_congr (g1 g2 : DependencyGraph T) (h : graphEquiv g1 g2)
    (budget : Option Nat) :
    (coreLoop g1 budget).out = (coreLoop g2 budget).out ∧
    (coreLoop g1 budget).stopped = (coreLoop g2 budget).stopped ∧
    (coreLoop g1 budget).fmax = (coreLoop g2 budget).fmax ∧
    (coreLoop g1 budget).edges.length = (coreLoop g2 budget).edges.length := by
  have hlen : g1.edges.length = g2.edges.length := List.Forall₂.length_eq h
  have hp : List.Forall₂ edgeEquiv (corePromoted g1).1 (corePromoted g2).1 ∧
      (corePromoted g1).2 = (corePromoted g2).2 := by
    unfold corePromoted
    rw [← hlen]
    exact promote_congr g1.edges.length g1.edges g2.edges 0 0 h
  have hrc : initRefcounts g1.edges = initRefcounts g2.edges :=
    initRefcounts_eq_of_forall₂ _ _ h
  have hplen : (corePromoted g1).1.length = (corePromoted g2).1.length :=
    List.Forall₂.length_eq hp.1
  unfold coreLoop
  rw [← hp.2, ← hrc, ← hplen]
  obtain ⟨ho, hs, hf, he⟩ := mainLoop_congr (corePromoted g1).1.length (corePromoted g1).1
    (corePromoted g2).1 (initRefcounts g1.edges) (corePromoted g1).2 0 budget [] hp.1
  exact ⟨ho, hs, hf, List.Forall₂.length_eq he⟩

/-- Equivalent graphs resolve to the same output sequence and the same
class of error (the concrete unknown-dependency witness may differ only in
which map-iteration representative is reported; here both components of
the error class coincide). -/
theorem Resolve_congr (g1 g2 : DependencyGraph T) (h : graphEquiv g1 g2) :
    (Resolve g1).1 = (Resolve g2).1 ∧
    Option.map errClass (Resolve g1).2 = Option.map errClass (Resolve g2).2 := by
  cases hv1 : validate g1 with
  | some d =>
    cases hv2 : validate g2 with
    | none =>
      exact absurd ((validate_none_equiv g1 g2 h).mpr hv2) (by simp [hv1])
    | some d2 =>
      rw [Resolve_invalid g1 d hv1, Resolve_invalid g2 d2 hv2]
      exact ⟨rfl, rfl⟩
  | none =>
    have hv2 : validate g2 = none := (validate_none_equiv g1 g2 h).mp hv1
    obtain ⟨ho, hs, hf, hl⟩ := coreLoop_congr g1 g2 h none
    have htrace : (resolveIterRun g1 none).trace = (resolveIterRun g2 none).trace := by
      rw [resolveIterRun_valid g1 none hv1, resolveIterRun_valid g2 none hv2]
      by_cases hstop : (coreLoop g1 none).stopped = true
      · have hstop2 : (coreLoop g2 none).stopped = true := by
          rw [← hs]
          exact hstop
        rw [if_pos hstop, if_pos hstop2]
        show (coreLoop g1 none).out.map Yield.elem = (coreLoop g2 none).out.map Yield.elem
        rw [ho]
      · have hstop2 : ¬ (coreLoop g2 none).stopped = true := by
          rw [← hs]
          exact hstop
        rw [if_neg hstop, if_neg hstop2]
        by_cases hfm : (coreLoop g1 none).fmax ≠ (coreLoop g1 none).edges.length
        · have hfm2 : (coreLoop g2 none).fmax ≠ (coreLoop g2 none).edges.length := by
            rw [← hf, ← hl]
            exact hfm
          rw [if_pos hfm, if_pos hfm2]
          show (coreLoop g1 none).out.map Yield.elem
                ++ [Yield.fail ResolveErr.circularDependency]
              = (coreLoop g2 none).out.map Yield.elem
                ++ [Yield.fail ResolveErr.circularDependency]
          rw [ho]
        · have hfm2 : ¬ (coreLoop g2 none).fmax ≠ (coreLoop g2 none).edges.length := by
            rw [← hf, ← hl]
            exact hfm
          rw [if_neg hfm, if_neg hfm2]
          show (coreLoop g1 none).out.map Yield.elem = (coreLoop g2 none).out.map Yield.elem
          rw [ho]
    unfold Resolve
    rw [htrace]
    exact ⟨rfl, rfl⟩

/-- C9: the resolved order depends only on the accumulated mapping from
element name to dependency set together with first-insertion order.
(i) Idempotent dependency addition: re-adding an already present
`(name, dep)` pair at any later point of the construction history leaves
the built graph bit-for-bit unchanged, hence also its resolved output.
(ii) Additivity across calls: `Add(x, [a])` followed later by `Add(x, [b])`
resolves to the same output sequence and the same class of error as the
single call `Add(x, [a, b])` at the first position, whatever other `Add`
calls surround them. -/
theorem claim9_add_algebra (P M S : List (T × List T)) (x d a b : T) :
    (buildGraph (P ++ (x, [d]) :: M ++ (x, [d]) :: S)
        = buildGraph (P ++ (x, [d]) :: M ++ S)
      ∧ Resolve (buildGraph (P ++ (x, [d]) :: M ++ (x, [d]) :: S))
        = Resolve (buildGraph (P ++ (x, [d]) :: M ++ S)))
    ∧ ((Resolve (buildGraph (P ++ (x, [a]) :: M ++ (x, [b]) :: S))).1
        = (Resolve (buildGraph (P ++ (x, [a, b]) :: M ++ S))).1
      ∧ Option.map errClass (Resolve (buildGraph (P ++ (x, [a]) :: M ++ (x, [b]) :: S))).2
        = Option.map errClass (Resolve (buildGraph (P ++ (x, [a, b]) :: M ++ S))).2) := by
  constructor
  · have he := buildGraph_dup_pair P M S x d
    exact ⟨he, by rw [he]⟩
  · exact Resolve_congr _ _ (buildGraph_split_equiv P M S x a b)

end Depgraph
